import Mathlib

/-!
Verification of the verbaflow RWKV language model server against its
natural-language specification.

The development shallowly embeds the Go source:

* the recurrent cell (package rwkv: TimeMix, ChannelMix, Layer, Model and the
  carried LayerState) is embedded over an abstract value type V together with a
  record of the tensor-substrate operations (spago ag package); hidden vectors
  are opaque values and each ag operation is an uninterpreted function, so the
  single-step/sequence equivalence is proved for every substrate in which
  elementwise product is commutative (floats are);
* the decoding engine (package decoder) is embedded over an arbitrary linear
  ordered field K; a float with the value negative infinity is represented as
  the element none of Option K, finite floats as some x (rounding is out of
  scope, as the spec demands only equivalence up to floating-point tolerance);
  the exponential used by Softmax is an abstract positive function so that the
  development stays executable, and theorems that need the genuine logarithm
  are stated over K = Real;
* the model converter storage handling (package rwkvlm) is embedded with an
  explicit inductive for the two PyTorch storage kinds.
-/

namespace VerbaFlow

/-! ## Generic map-accumulate infrastructure

The Go code threads a mutable state through loops over token sequences.  We
model such loops with an explicit map-accumulate combinator and prove the
algebraic laws (map fusion, residual fusion, stage composition) used to relate
the sequence-mode forward passes to iterated single-step calls. -/

def mapAccum (f : α → σ → β × σ) : List α → σ → List β × σ
  | [], s => ([], s)
  | a :: as, s =>
    let (b, s1) := f a s
    let (bs, s2) := mapAccum f as s1
    (b :: bs, s2)

theorem mapAccum_nil (f : α → σ → β × σ) (s : σ) : mapAccum f [] s = ([], s) := rfl

theorem mapAccum_cons (f : α → σ → β × σ) (a : α) (as : List α) (s : σ) :
    mapAccum f (a :: as) s =
      ((f a s).1 :: (mapAccum f as (f a s).2).1, (mapAccum f as (f a s).2).2) := rfl

theorem mapAccum_map (f : β → σ → γ × σ) (h : α → β) (xs : List α) (s : σ) :
    mapAccum f (xs.map h) s = mapAccum (fun a t => f (h a) t) xs s := by
  induction xs generalizing s with
  | nil => rfl
  | cons a as ih => simp [mapAccum_cons, ih]

theorem mapAccum_congr {f g : α → σ → β × σ} (h : ∀ a s, f a s = g a s)
    (xs : List α) (s : σ) : mapAccum f xs s = mapAccum g xs s := by
  induction xs generalizing s with
  | nil => rfl
  | cons a as ih => simp [mapAccum_cons, h, ih]

/-- Fusing a stateless output transformation into a map-accumulate. -/
theorem mapAccum_post (f : α → σ → β × σ) (h : β → γ) (xs : List α) (s : σ) :
    mapAccum (fun a t => ((h (f a t).1), (f a t).2)) xs s =
      ((mapAccum f xs s).1.map h, (mapAccum f xs s).2) := by
  induction xs generalizing s with
  | nil => rfl
  | cons a as ih => simp [mapAccum_cons, ih]

/-- Fusing the residual connection (elementwise combination of the input list
with the output list) into a map-accumulate. -/
theorem mapAccum_residual (f : α → σ → α × σ) (addOp : α → α → α)
    (xs : List α) (s : σ) :
    mapAccum (fun a t => (addOp a (f a t).1, (f a t).2)) xs s =
      (xs.zipWith addOp (mapAccum f xs s).1, (mapAccum f xs s).2) := by
  induction xs generalizing s with
  | nil => rfl
  | cons a as ih => simp [mapAccum_cons, ih]

/-- Interchange law: running a two-stage pipeline token by token is the same as
running the first stage over the whole sequence and then the second stage over
the intermediate outputs, provided the two stages act on disjoint components of
the carried state. -/
theorem mapAccum_compose (f : α → σ → β × σ) (g : β → τ → γ × τ) :
    ∀ (xs : List α) (s : σ) (t : τ),
      mapAccum (fun a (p : σ × τ) =>
          ((g (f a p.1).1 p.2).1, ((f a p.1).2, (g (f a p.1).1 p.2).2))) xs (s, t) =
        ((mapAccum g (mapAccum f xs s).1 t).1,
          ((mapAccum f xs s).2, (mapAccum g (mapAccum f xs s).1 t).2)) := by
  intro xs
  induction xs with
  | nil => intro s t; rfl
  | cons a as ih =>
    intro s t
    simp [mapAccum_cons, ih]

/-! ## Package rwkv: the recurrent cell

Embedding of src/rwkv (rwkv.go, state.go, timemix.go, matutils.go) together
with the ChannelMix and Layer files of the same package.  Hidden vectors have
the abstract type V; the spago ag operations used by the package are collected
in the record AG.  The fields zeroVec and negSentinel embed the fresh-state
vectors built by NewState (all zeros, and the -1e30 sentinel for att_p). -/

structure AG (V : Type) where
  add : V → V → V
  sub : V → V → V
  prod : V → V → V
  div : V → V → V
  maxT : V → V → V
  exp : V → V
  sigmoid : V → V
  relu : V → V
  square : V → V
  reverseSubOne : V → V
  mul : V → V → V
  halfScale : V → V
  zeroVec : V
  negSentinel : V

namespace Rwkv

variable {V : Type}

/-- LayerState from state.go: five vectors per layer. -/
structure LayerState (V : Type) where
  ffnXX : V
  attXX : V
  attAA : V
  attBB : V
  attPP : V

/-- Config from rwkv.go. -/
structure Config where
  dModel : Nat
  numLayers : Nat
  rescaleLayer : Nat

/-- NewState from state.go: a fresh all-zero state, with att_p initialized to
the large negative sentinel. -/
def NewState (g : AG V) (c : Config) : List (LayerState V) :=
  List.replicate c.numLayers
    { ffnXX := g.zeroVec, attXX := g.zeroVec, attAA := g.zeroVec,
      attBB := g.zeroVec, attPP := g.negSentinel }

/-! Vector-list helpers from matutils.go.  Go builds the output slice with the
length of the argument indicated below and indexes the other one, so zipWith
(which truncates to the shorter list) agrees on the always-equal-length inputs
used by the package. -/

def vsigmoid (g : AG V) (x : List V) : List V := x.map g.sigmoid

def vrelu (g : AG V) (x : List V) : List V := x.map g.relu

def vsquare (g : AG V) (x : List V) : List V := x.map g.square

def vmul (g : AG V) (a : V) (b : List V) : List V := b.map (g.mul a)

def vadd (g : AG V) (a b : List V) : List V := a.zipWith g.add b

def vprod (g : AG V) (a : V) (b : List V) : List V := b.map (g.prod a)

def vprod2 (g : AG V) (a b : List V) : List V := a.zipWith g.prod b

/-- TimeMix parameters (timemix.go). -/
structure TimeMix (V : Type) where
  key : V
  value : V
  receptance : V
  output : V
  timeDecay : V
  timeFirst : V
  timeMixK : V
  timeMixV : V
  timeMixR : V

namespace TimeMix

/-- TimeMix.ForwardSingle from timemix.go: token-shift mix, projections, the
numerically stable WKV output, and the decayed state advance. -/
def forwardSingle (g : AG V) (m : TimeMix V) (x : V) (state : LayerState V) :
    V × LayerState V :=
  let xx := state.attXX
  let aa := state.attAA
  let bb := state.attBB
  let pp := state.attPP
  let xk := g.add (g.prod m.timeMixK x) (g.prod (g.reverseSubOne m.timeMixK) xx)
  let xv := g.add (g.prod m.timeMixV x) (g.prod (g.reverseSubOne m.timeMixV) xx)
  let xr := g.add (g.prod m.timeMixR x) (g.prod (g.reverseSubOne m.timeMixR) xx)
  let k := g.mul m.key xk
  let v := g.mul m.value xv
  let r := g.sigmoid (g.mul m.receptance xr)
  let ww := g.add k m.timeFirst
  let p := g.maxT pp ww
  let e1 := g.exp (g.sub pp p)
  let e2 := g.exp (g.sub ww p)
  let a := g.add (g.prod e1 aa) (g.prod e2 v)
  let b := g.add (g.prod e1 bb) e2
  let rwkv := g.prod r (g.div a b)
  let out := g.mul m.output rwkv
  let ww2 := g.add pp m.timeDecay
  let p2 := g.maxT ww2 k
  let e1b := g.exp (g.sub ww2 p2)
  let e2b := g.exp (g.sub k p2)
  (out,
    { state with
      attXX := x
      attAA := g.add (g.prod e1b aa) (g.prod e2b v)
      attBB := g.add (g.prod e1b bb) e2b
      attPP := p2 })

/-- TimeMix.computeIntermediateValues from timemix.go. -/
def computeIntermediateValues (g : AG V) (m : TimeMix V) (x xx : List V) :
    List V × List V × List V :=
  (vadd g (vprod g m.timeMixK x) (vprod g (g.reverseSubOne m.timeMixK) xx),
   vadd g (vprod g m.timeMixV x) (vprod g (g.reverseSubOne m.timeMixV) xx),
   vadd g (vprod g m.timeMixR x) (vprod g (g.reverseSubOne m.timeMixR) xx))

/-- TimeMix.computeKeyValuesReceptance from timemix.go. -/
def computeKeyValuesReceptance (g : AG V) (m : TimeMix V)
    (xk xv xr : List V) : List V × List V × List V :=
  (vmul g m.key xk, vmul g m.value xv, vsigmoid g (vmul g m.receptance xr))

/-- TimeMix.singleStepAttention from timemix.go. -/
def singleStepAttention (g : AG V) (m : TimeMix V) (aa bb pp ki vi : V) :
    V × V × V × V :=
  let ww := g.add ki m.timeFirst
  let p := g.maxT pp ww
  let e1 := g.exp (g.sub pp p)
  let e2 := g.exp (g.sub ww p)
  let a := g.add (g.prod e1 aa) (g.prod e2 vi)
  let b := g.add (g.prod e1 bb) e2
  let wkv := g.div a b
  let ww2 := g.add pp m.timeDecay
  let e1b := g.exp (g.sub ww2 (g.maxT ww2 ki))
  let e2b := g.exp (g.sub ki (g.maxT ww2 ki))
  (wkv, g.add (g.prod e1b aa) (g.prod e2b vi), g.add (g.prod e1b bb) e2b,
    g.maxT ww2 ki)

/-- TimeMix.updateAttentionScores from timemix.go: the per-element recurrence
loop threading the three accumulators (Go iterates index i over k and v, which
always have equal length, here zipped). -/
def updateAttentionScores (g : AG V) (m : TimeMix V) :
    V → V → V → List (V × V) → List V × V × V × V
  | aa, bb, pp, [] => ([], aa, bb, pp)
  | aa, bb, pp, (ki, vi) :: rest =>
    let (wkv, aa1, bb1, pp1) := singleStepAttention g m aa bb pp ki vi
    let (wkvs, aa2, bb2, pp2) := updateAttentionScores g m aa1 bb1 pp1 rest
    (wkv :: wkvs, aa2, bb2, pp2)

/-- updateState from timemix.go.  Go reads the last sequence element; on an
empty sequence Go panics, here the previous value is kept (the equivalence
theorem only concerns non-empty sequences). -/
def updateState (state : LayerState V) (x : List V) (aa bb pp : V) :
    LayerState V :=
  { state with
    attXX := x.getLastD state.attXX
    attAA := aa
    attBB := bb
    attPP := pp }

/-- TimeMix.ForwardSequence from timemix.go: token-shift against the previous
sequence element (carried state for the first element), per-element recurrence
loop, single state write-back at the end. -/
def forwardSequence (g : AG V) (m : TimeMix V) (x : List V)
    (state : LayerState V) : List V × LayerState V :=
  let xx := state.attXX :: x.dropLast
  let (xk, xv, xr) := computeIntermediateValues g m x xx
  let (k, v, r) := computeKeyValuesReceptance g m xk xv xr
  let (wkv, newAA, newBB, newPP) :=
    updateAttentionScores g m state.attAA state.attBB state.attPP (k.zip v)
  let out := vmul g m.output (vprod2 g r wkv)
  (out, updateState state x newAA newBB newPP)

end TimeMix

/-- ChannelMix parameters. -/
structure ChannelMix (V : Type) where
  key : V
  value : V
  receptance : V
  timeMixK : V
  timeMixR : V

namespace ChannelMix

/-- ChannelMix.ForwardSingle: token-shift of key/receptance inputs against
ffn_x, squared-relu key projection, sigmoid receptance gate. -/
def forwardSingle (g : AG V) (m : ChannelMix V) (x : V) (state : LayerState V) :
    V × LayerState V :=
  let xx := state.ffnXX
  let xk := g.add (g.prod x m.timeMixK) (g.prod (g.reverseSubOne m.timeMixK) xx)
  let xr := g.add (g.prod x m.timeMixR) (g.prod (g.reverseSubOne m.timeMixR) xx)
  let k := g.square (g.relu (g.mul m.key xk))
  let kv := g.mul m.value k
  let r := g.sigmoid (g.mul m.receptance xr)
  (g.prod r kv, { state with ffnXX := x })

/-- ChannelMix.ForwardSequence: the state is updated with the last element of
the sequence. -/
def forwardSequence (g : AG V) (m : ChannelMix V) (x : List V)
    (state : LayerState V) : List V × LayerState V :=
  let xx := state.ffnXX :: x.dropLast
  let xk := vadd g (vprod g m.timeMixK x) (vprod g (g.reverseSubOne m.timeMixK) xx)
  let xr := vadd g (vprod g m.timeMixR x) (vprod g (g.reverseSubOne m.timeMixR) xx)
  let k := vsquare g (vrelu g (vmul g m.key xk))
  let kv := vmul g m.value k
  let r := vsigmoid g (vmul g m.receptance xr)
  (vprod2 g r kv, { state with ffnXX := x.getLastD state.ffnXX })

end ChannelMix

/-- An abstract layernorm module (spago layernorm.Model); its Forward maps a
vector to a vector, and the sequence version maps it over every element. -/
structure LNorm (V : Type) where
  fwd : V → V

/-- Layer: the optional pre-norm LN0 (present only on the first block, see the
converter), LN1/LN2, and the two mixing blocks. -/
structure Layer (V : Type) where
  ln0 : Option (LNorm V)
  ln1 : LNorm V
  ln2 : LNorm V
  chanMix : ChannelMix V
  timeMix : TimeMix V

namespace Layer

/-- Layer.ForwardSingle: optional LN0, residual-add of TimeMix(LN1(x)),
residual-add of ChannelMix(LN2(x)). -/
def forwardSingle (g : AG V) (m : Layer V) (x0 : V) (state : LayerState V) :
    V × LayerState V :=
  let x := match m.ln0 with
    | some ln => ln.fwd x0
    | none => x0
  let ts := m.timeMix.forwardSingle g (m.ln1.fwd x) state
  let x1 := g.add x ts.1
  let cs := m.chanMix.forwardSingle g (m.ln2.fwd x1) ts.2
  (g.add x1 cs.1, cs.2)

/-- Layer.ForwardSequence. -/
def forwardSequence (g : AG V) (m : Layer V) (x0 : List V)
    (state : LayerState V) : List V × LayerState V :=
  let x := match m.ln0 with
    | some ln => x0.map ln.fwd
    | none => x0
  let ts := m.timeMix.forwardSequence g (x.map m.ln1.fwd) state
  let x1 := vadd g x ts.1
  let cs := m.chanMix.forwardSequence g (x1.map m.ln2.fwd) ts.2
  (vadd g x1 cs.1, cs.2)

end Layer

/-- Model from rwkv.go: the encoder stack. -/
structure Model (V : Type) where
  layers : List (Layer V)
  config : Config

/-- The layer loop of Model.ForwardSingle: apply each layer in order to its own
LayerState, halving the running hidden value after every rescaleLayer-th layer.
Go indexes state[i] and panics when the state list is shorter than the layer
list; here the remaining layers then act as the identity (the theorems assume
aligned lengths). -/
def forwardLayersSingle (g : AG V) (rescale : Nat) :
    Nat → List (Layer V) → V → List (LayerState V) → V × List (LayerState V)
  | _, [], x, states => (x, states)
  | _, _ :: _, x, [] => (x, [])
  | i, layer :: rest, x, st :: sts =>
    let ys := layer.forwardSingle g x st
    let y2 := if (i + 1) % rescale == 0 then g.halfScale ys.1 else ys.1
    let zs := forwardLayersSingle g rescale (i + 1) rest y2 sts
    (zs.1, ys.2 :: zs.2)

/-- The layer loop of Model.ForwardSequence. -/
def forwardLayersSequence (g : AG V) (rescale : Nat) :
    Nat → List (Layer V) → List V → List (LayerState V) →
      List V × List (LayerState V)
  | _, [], xs, states => (xs, states)
  | _, _ :: _, xs, [] => (xs, [])
  | i, layer :: rest, xs, st :: sts =>
    let ys := layer.forwardSequence g xs st
    let ys2 := if (i + 1) % rescale == 0 then ys.1.map g.halfScale else ys.1
    let zs := forwardLayersSequence g rescale (i + 1) rest ys2 sts
    (zs.1, ys.2 :: zs.2)

namespace Model

/-- Model.ForwardSingle from rwkv.go: an empty state is replaced by a fresh
NewState, then every layer runs in order with periodic halving. -/
def forwardSingle (g : AG V) (m : Model V) (x : V)
    (state : List (LayerState V)) : V × List (LayerState V) :=
  let state := if state.isEmpty then NewState g m.config else state
  forwardLayersSingle g m.config.rescaleLayer 0 m.layers x state

/-- Model.ForwardSequence from rwkv.go. -/
def forwardSequence (g : AG V) (m : Model V) (x : List V)
    (state : List (LayerState V)) : List V × List (LayerState V) :=
  let state := if state.isEmpty then NewState g m.config else state
  forwardLayersSequence g m.config.rescaleLayer 0 m.layers x state

/-- Calling ForwardSingle once per token in order, collecting every per-token
hidden output and threading the state, exactly as in the documentation comment
of Model.ForwardSequence. -/
def forwardSingleIter (g : AG V) (m : Model V) :
    List V → List (LayerState V) → List V × List (LayerState V)
  | [], state => ([], state)
  | x :: xs, state =>
    let ys := m.forwardSingle g x state
    let rest := m.forwardSingleIter g xs ys.2
    (ys.1 :: rest.1, rest.2)

end Model

/-! ### Equivalence of sequence-mode and iterated single-step forward passes -/

theorem TimeMix.forwardSequence_nil_tm (g : AG V) (m : TimeMix V)
    (st : LayerState V) : m.forwardSequence g [] st = ([], st) := rfl

theorem TimeMix.forwardSequence_cons_tm (g : AG V) (m : TimeMix V) (x : V)
    (xs : List V) (st : LayerState V) :
    m.forwardSequence g (x :: xs) st =
      ((m.forwardSingle g x st).1 ::
          (m.forwardSequence g xs (m.forwardSingle g x st).2).1,
        (m.forwardSequence g xs (m.forwardSingle g x st).2).2) := by
  cases xs with
  | nil =>
    simp [forwardSequence, forwardSingle, computeIntermediateValues,
      computeKeyValuesReceptance, updateAttentionScores, singleStepAttention,
      updateState, vadd, vprod, vmul, vsigmoid, vprod2]
  | cons y ys =>
    simp [forwardSequence, forwardSingle, computeIntermediateValues,
      computeKeyValuesReceptance, updateAttentionScores, singleStepAttention,
      updateState, vadd, vprod, vmul, vsigmoid, vprod2]
    cases h : (y :: ys).getLast? with
    | none => simp at h
    | some a => rfl

/-- The TimeMix sequence-mode forward pass coincides with iterating the
single-step forward over the sequence. -/
theorem TimeMix.forwardSequence_eq_mapAccum_tm (g : AG V) (m : TimeMix V) :
    ∀ (xs : List V) (st : LayerState V),
      m.forwardSequence g xs st = mapAccum (m.forwardSingle g) xs st := by
  intro xs
  induction xs with
  | nil => intro st; rfl
  | cons x xs ih =>
    intro st
    rw [TimeMix.forwardSequence_cons_tm, mapAccum_cons, ih]

theorem ChannelMix.forwardSequence_nil_cm (g : AG V) (m : ChannelMix V)
    (st : LayerState V) : m.forwardSequence g [] st = ([], st) := rfl

/-- In Go, ChannelMix.ForwardSingle writes the elementwise product as
Prod(x, mix) while ForwardSequence writes prod(mix, x); the equivalence
therefore assumes the substrate's elementwise product commutes (true for
floating point tensors). -/
theorem ChannelMix.forwardSequence_cons_cm (g : AG V)
    (hprod : ∀ a b, g.prod a b = g.prod b a) (m : ChannelMix V) (x : V)
    (xs : List V) (st : LayerState V) :
    m.forwardSequence g (x :: xs) st =
      ((m.forwardSingle g x st).1 ::
          (m.forwardSequence g xs (m.forwardSingle g x st).2).1,
        (m.forwardSequence g xs (m.forwardSingle g x st).2).2) := by
  cases xs with
  | nil =>
    simp [forwardSequence, forwardSingle, vadd, vprod, vmul, vsigmoid,
      vsquare, vrelu, vprod2]
    rw [hprod x m.timeMixK, hprod x m.timeMixR]
  | cons y ys =>
    simp [forwardSequence, forwardSingle, vadd, vprod, vmul, vsigmoid,
      vsquare, vrelu, vprod2]
    rw [hprod x m.timeMixK, hprod x m.timeMixR]
    refine ⟨rfl, ?_⟩
    cases h : (y :: ys).getLast? with
    | none => simp at h
    | some a => rfl

/-- The ChannelMix sequence-mode forward pass coincides with iterating the
single-step forward over the sequence. -/
theorem ChannelMix.forwardSequence_eq_mapAccum_cm (g : AG V)
    (hprod : ∀ a b, g.prod a b = g.prod b a) (m : ChannelMix V) :
    ∀ (xs : List V) (st : LayerState V),
      m.forwardSequence g xs st = mapAccum (m.forwardSingle g) xs st := by
  intro xs
  induction xs with
  | nil => intro st; rfl
  | cons x xs ih =>
    intro st
    rw [ChannelMix.forwardSequence_cons_cm g hprod, mapAccum_cons, ih]

/-! ### State decomposition

TimeMix reads and writes only the four att components of the layer state while
ChannelMix reads and writes only ffn_x; this disjointness is what makes it
sound for Layer.ForwardSequence to run TimeMix over the whole sequence before
ChannelMix starts.  The helpers below project and rebuild the two halves. -/

def LayerState.att4 (s : LayerState V) : V × V × V × V :=
  (s.attXX, s.attAA, s.attBB, s.attPP)

def LayerState.withAtt4 (s : LayerState V) (q : V × V × V × V) : LayerState V :=
  ⟨s.ffnXX, q.1, q.2.1, q.2.2.1, q.2.2.2⟩

def LayerState.withFfn (s : LayerState V) (w : V) : LayerState V :=
  { s with ffnXX := w }

/-- The action of TimeMix.ForwardSingle on the att components alone. -/
def TimeMix.attCore (g : AG V) (m : TimeMix V) (x : V) (q : V × V × V × V) :
    V × (V × V × V × V) :=
  let xx := q.1
  let aa := q.2.1
  let bb := q.2.2.1
  let pp := q.2.2.2
  let xk := g.add (g.prod m.timeMixK x) (g.prod (g.reverseSubOne m.timeMixK) xx)
  let xv := g.add (g.prod m.timeMixV x) (g.prod (g.reverseSubOne m.timeMixV) xx)
  let xr := g.add (g.prod m.timeMixR x) (g.prod (g.reverseSubOne m.timeMixR) xx)
  let k := g.mul m.key xk
  let v := g.mul m.value xv
  let r := g.sigmoid (g.mul m.receptance xr)
  let ww := g.add k m.timeFirst
  let p := g.maxT pp ww
  let e1 := g.exp (g.sub pp p)
  let e2 := g.exp (g.sub ww p)
  let a := g.add (g.prod e1 aa) (g.prod e2 v)
  let b := g.add (g.prod e1 bb) e2
  let out := g.mul m.output (g.prod r (g.div a b))
  let ww2 := g.add pp m.timeDecay
  let p2 := g.maxT ww2 k
  let e1b := g.exp (g.sub ww2 p2)
  let e2b := g.exp (g.sub k p2)
  (out, (x, g.add (g.prod e1b aa) (g.prod e2b v), g.add (g.prod e1b bb) e2b, p2))

theorem TimeMix.forwardSingle_core_tm (g : AG V) (m : TimeMix V) (x : V)
    (st : LayerState V) :
    m.forwardSingle g x st =
      ((m.attCore g x st.att4).1, st.withAtt4 (m.attCore g x st.att4).2) := rfl

/-- The action of ChannelMix.ForwardSingle on the ffn component alone. -/
def ChannelMix.ffnCore (g : AG V) (m : ChannelMix V) (x w : V) : V × V :=
  let xk := g.add (g.prod x m.timeMixK) (g.prod (g.reverseSubOne m.timeMixK) w)
  let xr := g.add (g.prod x m.timeMixR) (g.prod (g.reverseSubOne m.timeMixR) w)
  let k := g.square (g.relu (g.mul m.key xk))
  let kv := g.mul m.value k
  let r := g.sigmoid (g.mul m.receptance xr)
  (g.prod r kv, x)

theorem ChannelMix.forwardSingle_core_cm (g : AG V) (m : ChannelMix V) (x : V)
    (st : LayerState V) :
    m.forwardSingle g x st =
      ((m.ffnCore g x st.ffnXX).1, st.withFfn (m.ffnCore g x st.ffnXX).2) := rfl

/-- Lifting a map-accumulate on the att components to the whole layer state. -/
theorem mapAccum_att4 (F : α → (V × V × V × V) → β × (V × V × V × V)) :
    ∀ (xs : List α) (st : LayerState V),
      mapAccum (fun a (s : LayerState V) =>
          ((F a s.att4).1, s.withAtt4 (F a s.att4).2)) xs st =
        ((mapAccum F xs st.att4).1, st.withAtt4 (mapAccum F xs st.att4).2) := by
  intro xs
  induction xs with
  | nil =>
    intro st
    simp [mapAccum_nil, LayerState.att4, LayerState.withAtt4]
  | cons a as ih =>
    intro st
    simp only [mapAccum_cons, ih]
    rfl

/-- Lifting a map-accumulate on the ffn component to the whole layer state. -/
theorem mapAccum_ffn (G : α → V → β × V) :
    ∀ (xs : List α) (st : LayerState V),
      mapAccum (fun a (s : LayerState V) =>
          ((G a s.ffnXX).1, s.withFfn (G a s.ffnXX).2)) xs st =
        ((mapAccum G xs st.ffnXX).1, st.withFfn (mapAccum G xs st.ffnXX).2) := by
  intro xs
  induction xs with
  | nil =>
    intro st
    simp [mapAccum_nil, LayerState.withFfn]
  | cons a as ih =>
    intro st
    simp only [mapAccum_cons, ih]
    rfl

namespace Layer

/-- The optional pre-norm of a layer. -/
def ln0Apply (m : Layer V) (x : V) : V :=
  match m.ln0 with
  | some ln => ln.fwd x
  | none => x

/-- The TimeMix residual stage of a layer, acting on the att components. -/
def stageT (g : AG V) (m : Layer V) (a : V) (q : V × V × V × V) :
    V × (V × V × V × V) :=
  (g.add a (m.timeMix.attCore g (m.ln1.fwd a) q).1,
    (m.timeMix.attCore g (m.ln1.fwd a) q).2)

/-- The ChannelMix residual stage of a layer, acting on the ffn component. -/
def stageC (g : AG V) (m : Layer V) (b w : V) : V × V :=
  (g.add b (m.chanMix.ffnCore g (m.ln2.fwd b) w).1,
    (m.chanMix.ffnCore g (m.ln2.fwd b) w).2)

theorem forwardSingle_core_layer (g : AG V) (m : Layer V) (x : V)
    (st : LayerState V) :
    m.forwardSingle g x st =
      ((m.stageC g (m.stageT g (m.ln0Apply x) st.att4).1 st.ffnXX).1,
        (st.withAtt4 (m.stageT g (m.ln0Apply x) st.att4).2).withFfn
          (m.stageC g (m.stageT g (m.ln0Apply x) st.att4).1 st.ffnXX).2) := rfl

/-- The composed per-token step of a layer acting on the decomposed state. -/
def stepP (g : AG V) (m : Layer V) (a : V) (p : (V × V × V × V) × V) :
    V × ((V × V × V × V) × V) :=
  ((m.stageC g (m.stageT g (m.ln0Apply a) p.1).1 p.2).1,
    ((m.stageT g (m.ln0Apply a) p.1).2,
      (m.stageC g (m.stageT g (m.ln0Apply a) p.1).1 p.2).2))

theorem mapAccum_stageT (g : AG V) (m : Layer V) :
    ∀ (l : List V) (s : LayerState V),
      vadd g l (mapAccum
          (fun b u => m.timeMix.forwardSingle g (m.ln1.fwd b) u) l s).1 =
        (mapAccum (m.stageT g) l s.att4).1 ∧
      (mapAccum (fun b u => m.timeMix.forwardSingle g (m.ln1.fwd b) u) l s).2 =
        s.withAtt4 (mapAccum (m.stageT g) l s.att4).2 := by
  intro l
  induction l with
  | nil => intro s; exact ⟨rfl, rfl⟩
  | cons a as ih =>
    intro s
    obtain ⟨ih1, ih2⟩ :=
      ih (s.withAtt4 (m.timeMix.attCore g (m.ln1.fwd a) s.att4).2)
    exact ⟨congrArg₂ List.cons rfl ih1, ih2⟩

theorem mapAccum_stageC (g : AG V) (m : Layer V) :
    ∀ (l : List V) (s : LayerState V),
      vadd g l (mapAccum
          (fun b u => m.chanMix.forwardSingle g (m.ln2.fwd b) u) l s).1 =
        (mapAccum (m.stageC g) l s.ffnXX).1 ∧
      (mapAccum (fun b u => m.chanMix.forwardSingle g (m.ln2.fwd b) u) l s).2 =
        s.withFfn (mapAccum (m.stageC g) l s.ffnXX).2 := by
  intro l
  induction l with
  | nil => intro s; exact ⟨rfl, rfl⟩
  | cons a as ih =>
    intro s
    obtain ⟨ih1, ih2⟩ :=
      ih (s.withFfn (m.chanMix.ffnCore g (m.ln2.fwd a) s.ffnXX).2)
    exact ⟨congrArg₂ List.cons rfl ih1, ih2⟩

theorem mapAccum_forwardSingle_decomp (g : AG V) (m : Layer V) :
    ∀ (l : List V) (s : LayerState V),
      (mapAccum (m.forwardSingle g) l s).1 =
        (mapAccum (m.stepP g) l (s.att4, s.ffnXX)).1 ∧
      (mapAccum (m.forwardSingle g) l s).2 =
        (s.withAtt4 (mapAccum (m.stepP g) l (s.att4, s.ffnXX)).2.1).withFfn
          (mapAccum (m.stepP g) l (s.att4, s.ffnXX)).2.2 := by
  intro l
  induction l with
  | nil => intro s; exact ⟨rfl, rfl⟩
  | cons a as ih =>
    intro s
    obtain ⟨ih1, ih2⟩ :=
      ih ((s.withAtt4 (m.stageT g (m.ln0Apply a) s.att4).2).withFfn
        (m.stageC g (m.stageT g (m.ln0Apply a) s.att4).1 s.ffnXX).2)
    exact ⟨congrArg₂ List.cons rfl ih1, ih2⟩

/-- The Layer sequence-mode forward pass coincides with iterating the
single-step forward over the sequence. -/
theorem forwardSequence_eq_mapAccum_layer (g : AG V)
    (hprod : ∀ a b, g.prod a b = g.prod b a) (m : Layer V)
    (xs : List V) (st : LayerState V) :
    m.forwardSequence g xs st = mapAccum (m.forwardSingle g) xs st := by
  have hln0 : (match m.ln0 with
      | some ln => xs.map ln.fwd
      | none => xs) = xs.map m.ln0Apply := by
    cases h0 : m.ln0 with
    | none =>
      have hid : m.ln0Apply = fun x => x := by
        funext x; simp [ln0Apply, h0]
      rw [hid, List.map_id']
    | some ln =>
      have hfn : m.ln0Apply = ln.fwd := by
        funext x; simp [ln0Apply, h0]
      rw [hfn]
  have htm : m.timeMix.forwardSequence g ((xs.map m.ln0Apply).map m.ln1.fwd) st
      = mapAccum (fun b u => m.timeMix.forwardSingle g (m.ln1.fwd b) u)
          (xs.map m.ln0Apply) st := by
    rw [TimeMix.forwardSequence_eq_mapAccum_tm, mapAccum_map]
  obtain ⟨hT1, hT2⟩ := mapAccum_stageT g m (xs.map m.ln0Apply) st
  -- Abbreviations for the intermediate sequence and states.
  set L := xs.map m.ln0Apply with hL
  set X1 := (mapAccum (m.stageT g) L st.att4).1 with hX1
  set QT := (mapAccum (m.stageT g) L st.att4).2 with hQT
  have hcm : m.chanMix.forwardSequence g (X1.map m.ln2.fwd) (st.withAtt4 QT)
      = mapAccum (fun b u => m.chanMix.forwardSingle g (m.ln2.fwd b) u)
          X1 (st.withAtt4 QT) := by
    rw [ChannelMix.forwardSequence_eq_mapAccum_cm g hprod, mapAccum_map]
  obtain ⟨hC1, hC2⟩ := mapAccum_stageC g m X1 (st.withAtt4 QT)
  obtain ⟨hD1, hD2⟩ := mapAccum_forwardSingle_decomp g m xs st
  have hcompose := mapAccum_compose
    (fun a q => m.stageT g (m.ln0Apply a) q) (m.stageC g) xs st.att4 st.ffnXX
  have hmapF : mapAccum (fun a q => m.stageT g (m.ln0Apply a) q) xs st.att4
      = mapAccum (m.stageT g) L st.att4 := (mapAccum_map (m.stageT g) m.ln0Apply xs st.att4).symm
  -- Left-hand side in terms of the decomposed stages.
  show (let x := match m.ln0 with
      | some ln => xs.map ln.fwd
      | none => xs
    let ts := m.timeMix.forwardSequence g (x.map m.ln1.fwd) st
    let x1 := vadd g x ts.1
    let cs := m.chanMix.forwardSequence g (x1.map m.ln2.fwd) ts.2
    (vadd g x1 cs.1, cs.2)) = _
  simp only [hln0, htm]
  have hts2 : (mapAccum (fun b u => m.timeMix.forwardSingle g (m.ln1.fwd b) u) L st).2
      = st.withAtt4 QT := hT2
  simp only [hT1, hts2, hcm, hC1, hC2]
  -- Right-hand side through the decomposition and the interchange law.
  refine Prod.ext ?_ ?_
  · rw [hD1]
    rw [show (mapAccum (m.stepP g) xs (st.att4, st.ffnXX)).1 =
      (mapAccum (fun a (p : (V × V × V × V) × V) =>
        ((m.stageC g ((fun a q => m.stageT g (m.ln0Apply a) q) a p.1).1 p.2).1,
          (((fun a q => m.stageT g (m.ln0Apply a) q) a p.1).2,
            (m.stageC g ((fun a q => m.stageT g (m.ln0Apply a) q) a p.1).1 p.2).2)))
        xs (st.att4, st.ffnXX)).1 from rfl]
    rw [hcompose]
    rw [hmapF]
    rfl
  · rw [hD2]
    rw [show (mapAccum (m.stepP g) xs (st.att4, st.ffnXX)).2 =
      (mapAccum (fun a (p : (V × V × V × V) × V) =>
        ((m.stageC g ((fun a q => m.stageT g (m.ln0Apply a) q) a p.1).1 p.2).1,
          (((fun a q => m.stageT g (m.ln0Apply a) q) a p.1).2,
            (m.stageC g ((fun a q => m.stageT g (m.ln0Apply a) q) a p.1).1 p.2).2)))
        xs (st.att4, st.ffnXX)).2 from rfl]
    rw [hcompose]
    rw [hmapF]
    rfl

end Layer

/-! ### Model-level equivalence -/

theorem mapAccum_id (xs : List α) (s : σ) :
    mapAccum (fun (a : α) (t : σ) => (a, t)) xs s = (xs, s) := by
  induction xs generalizing s with
  | nil => rfl
  | cons a as ih => simp [mapAccum_cons, ih]

/-- Transport of a map-accumulate along the decomposition of a non-empty state
list into its head and tail. -/
theorem mapAccum_consState {A : Type} (C : α → (A × List A) → β × (A × List A))
    (f : α → List A → β × List A)
    (hf : ∀ x st sts, f x (st :: sts) =
      ((C x (st, sts)).1, (C x (st, sts)).2.1 :: (C x (st, sts)).2.2)) :
    ∀ (xs : List α) (st : A) (sts : List A),
      mapAccum f xs (st :: sts) =
        ((mapAccum C xs (st, sts)).1,
          (mapAccum C xs (st, sts)).2.1 :: (mapAccum C xs (st, sts)).2.2) := by
  intro xs
  induction xs with
  | nil => intro st sts; rfl
  | cons a as ih =>
    intro st sts
    simp only [mapAccum_cons, hf]
    rw [ih]

theorem mapAccum_forwardLayersSingle_nilState (g : AG V) (R : Nat) (i : Nat)
    (layers : List (Layer V)) :
    ∀ xs : List V,
      mapAccum (fun x st => forwardLayersSingle g R i layers x st) xs
        ([] : List (LayerState V)) = (xs, []) := by
  cases layers with
  | nil => intro xs; exact mapAccum_id xs []
  | cons layer rest =>
    intro xs
    induction xs with
    | nil => rfl
    | cons x xs ih => simp only [mapAccum_cons, forwardLayersSingle, ih]

/-- The layer loop of the sequence-mode forward pass is the map-accumulate of
the layer loop of the single-step forward pass. -/
theorem forwardLayersSequence_eq_mapAccum (g : AG V)
    (hprod : ∀ a b, g.prod a b = g.prod b a) (R : Nat) :
    ∀ (layers : List (Layer V)) (i : Nat) (xs : List V)
      (states : List (LayerState V)),
      forwardLayersSequence g R i layers xs states =
        mapAccum (fun x st => forwardLayersSingle g R i layers x st) xs states := by
  intro layers
  induction layers with
  | nil =>
    intro i xs states
    simp only [forwardLayersSequence, forwardLayersSingle]
    rw [mapAccum_id]
  | cons layer rest ih =>
    intro i xs states
    cases states with
    | nil =>
      rw [mapAccum_forwardLayersSingle_nilState]
      rfl
    | cons st sts =>
      -- Decompose the head state, apply the interchange law, then fold the
      -- per-layer equivalences back in.
      rw [mapAccum_consState
        (fun x (p : LayerState V × List (LayerState V)) =>
          ((forwardLayersSingle g R (i + 1) rest
              (if (i + 1) % R == 0 then
                g.halfScale (layer.forwardSingle g x p.1).1
              else (layer.forwardSingle g x p.1).1) p.2).1,
            ((layer.forwardSingle g x p.1).2,
              (forwardLayersSingle g R (i + 1) rest
                (if (i + 1) % R == 0 then
                  g.halfScale (layer.forwardSingle g x p.1).1
                else (layer.forwardSingle g x p.1).1) p.2).2)))
        (fun x st => forwardLayersSingle g R i (layer :: rest) x st)
        (fun x st sts => rfl) xs st sts]
      rw [mapAccum_compose
        (fun x q => (if (i + 1) % R == 0 then
            g.halfScale (layer.forwardSingle g x q).1
          else (layer.forwardSingle g x q).1, (layer.forwardSingle g x q).2))
        (fun y ss => forwardLayersSingle g R (i + 1) rest y ss) xs st sts]
      show forwardLayersSequence g R i (layer :: rest) xs (st :: sts) = _
      simp only [forwardLayersSequence]
      rw [Layer.forwardSequence_eq_mapAccum_layer g hprod, ih]
      cases hcond : ((i + 1) % R == 0) with
      | true =>
        simp [hcond]
        rw [show (mapAccum (fun x q =>
            (g.halfScale (layer.forwardSingle g x q).1,
              (layer.forwardSingle g x q).2)) xs st) =
          (mapAccum (fun x q =>
            (g.halfScale ((layer.forwardSingle g) x q).1,
              ((layer.forwardSingle g) x q).2)) xs st) from rfl]
        rw [mapAccum_post (layer.forwardSingle g) g.halfScale xs st]
        exact ⟨rfl, rfl, rfl⟩
      | false =>
        simp [hcond]

theorem forwardLayersSingle_length (g : AG V) (R : Nat) :
    ∀ (layers : List (Layer V)) (i : Nat) (x : V)
      (states : List (LayerState V)),
      ((forwardLayersSingle g R i layers x states).2).length = states.length := by
  intro layers
  induction layers with
  | nil => intro i x states; rfl
  | cons layer rest ih =>
    intro i x states
    cases states with
    | nil => rfl
    | cons st sts => simp [forwardLayersSingle, ih]

namespace Model

theorem forwardSingleIter_eq_mapAccum (g : AG V) (m : Model V) :
    ∀ (xs : List V) (states : List (LayerState V)), states ≠ [] →
      m.forwardSingleIter g xs states =
        mapAccum (fun x st =>
          forwardLayersSingle g m.config.rescaleLayer 0 m.layers x st) xs states := by
  intro xs
  induction xs with
  | nil => intro states _; rfl
  | cons x xs ih =>
    intro states hne
    obtain ⟨st, sts, rfl⟩ := List.exists_cons_of_ne_nil hne
    have hstep : m.forwardSingle g x (st :: sts) =
        forwardLayersSingle g m.config.rescaleLayer 0 m.layers x (st :: sts) := by
      simp [Model.forwardSingle]
    have hne2 : (forwardLayersSingle g m.config.rescaleLayer 0 m.layers x
        (st :: sts)).2 ≠ [] := by
      have := forwardLayersSingle_length g m.config.rescaleLayer m.layers 0 x
        (st :: sts)
      intro hnil
      rw [hnil] at this
      simp at this
    show (let ys := m.forwardSingle g x (st :: sts)
      let rest := m.forwardSingleIter g xs ys.2
      (ys.1 :: rest.1, rest.2)) = _
    simp only [hstep, mapAccum_cons]
    rw [ih _ hne2]

/-- Claim C1: for every non-empty input sequence of tokens and every starting
state, the sequence-mode forward pass Model.ForwardSequence (built from
TimeMix.ForwardSequence and ChannelMix.ForwardSequence, which token-shift each
element against the previous sequence element, fall back to the carried state
only for the first element, and write the state back once at the end using the
last element's recurrence values) returns the same per-token hidden outputs and
leaves the same final state as calling ForwardSingle once per token in order.
The hypothesis asks the substrate's elementwise product to commute, which
floating point satisfies; an empty starting state is replaced by a fresh
NewState identically on both paths. -/
theorem forwardSequence_eq_forwardSingleIter (g : AG V)
    (hprod : ∀ a b, g.prod a b = g.prod b a) (m : Model V)
    (xs : List V) (st : List (LayerState V)) (hxs : xs ≠ []) :
    m.forwardSequence g xs st = m.forwardSingleIter g xs st := by
  cases st with
  | cons s0 srest =>
    show forwardLayersSequence g m.config.rescaleLayer 0 m.layers xs
        (s0 :: srest) = _
    rw [forwardLayersSequence_eq_mapAccum g hprod]
    rw [forwardSingleIter_eq_mapAccum g m xs (s0 :: srest) (by simp)]
  | nil =>
    obtain ⟨x, xs', rfl⟩ := List.exists_cons_of_ne_nil hxs
    show forwardLayersSequence g m.config.rescaleLayer 0 m.layers (x :: xs')
        (NewState g m.config) = _
    rw [forwardLayersSequence_eq_mapAccum g hprod]
    cases hnum : m.config.numLayers with
    | zero =>
      have hns : NewState g m.config = [] := by simp [NewState, hnum]
      rw [hns, mapAccum_forwardLayersSingle_nilState]
      -- The iterated side renormalizes the empty state at every step, and the
      -- layer loop leaves both components untouched on the empty state.
      have hsingle : ∀ z, m.forwardSingle g z [] = (z, []) := by
        intro z
        simp only [Model.forwardSingle, List.isEmpty_nil, if_true, hns]
        cases hl : m.layers with
        | nil => rfl
        | cons l ls => rfl
      have hiter : ∀ l : List V, m.forwardSingleIter g l [] = (l, []) := by
        intro l
        induction l with
        | nil => rfl
        | cons z zs ihz =>
          show (let ys := m.forwardSingle g z []
            let rest := m.forwardSingleIter g zs ys.2
            (ys.1 :: rest.1, rest.2)) = _
          simp only [hsingle, ihz]
      rw [hiter]
    | succ n =>
      have hne : NewState g m.config ≠ [] := by
        simp [NewState, hnum]
      have hstep : m.forwardSingle g x [] =
          forwardLayersSingle g m.config.rescaleLayer 0 m.layers x
            (NewState g m.config) := by
        simp [Model.forwardSingle]
      have hne2 : (forwardLayersSingle g m.config.rescaleLayer 0 m.layers x
          (NewState g m.config)).2 ≠ [] := by
        have := forwardLayersSingle_length g m.config.rescaleLayer m.layers 0 x
          (NewState g m.config)
        intro hnil
        rw [hnil] at this
        simp [NewState, hnum] at this
      show _ = (let ys := m.forwardSingle g x []
        let rest := m.forwardSingleIter g xs' ys.2
        (ys.1 :: rest.1, rest.2))
      simp only [hstep, mapAccum_cons]
      rw [forwardSingleIter_eq_mapAccum g m xs' _ hne2]

end Model

/-! ### The converter's block construction (claim C9)

converter.convBlock builds one rwkv.Layer from the fetched per-block
parameters. In Go each component is fetched from the pickled parameter map and
any fetch error aborts the block; the shallow embedding receives the already
fetched components, which is faithful for every successfully converted block.
The extra pre-normalization LN0 is converted only when the block index is 0;
otherwise the Layer's LN0 pointer keeps the Go zero value nil, embedded here
as none. -/

def convBlock (id : Nat) (chanMix : ChannelMix V) (timeMix : TimeMix V)
    (ln0 ln1 ln2 : LNorm V) : Layer V :=
  { ln0 := if id == 0 then some ln0 else none
    ln1 := ln1
    ln2 := ln2
    chanMix := chanMix
    timeMix := timeMix }

/-- Claim C9: for every layer of index greater than 0 built by the converter,
LN0 is absent, and both the single-step and the sequence-mode forward passes
consist only of the residual-add of TimeMix(LN1(x)) followed by the
residual-add of ChannelMix(LN2(x)), with no additional LayerNorm applied
before the first block. -/
theorem claim_C9 (g : AG V) (id : Nat) (hid : id ≠ 0) (cm : ChannelMix V)
    (tm : TimeMix V) (l0 l1 l2 : LNorm V) :
    (convBlock id cm tm l0 l1 l2).ln0 = none ∧
    (∀ (x : V) (st : LayerState V),
      (convBlock id cm tm l0 l1 l2).forwardSingle g x st =
        (let ts := tm.forwardSingle g (l1.fwd x) st
         let x1 := g.add x ts.1
         let cs := cm.forwardSingle g (l2.fwd x1) ts.2
         (g.add x1 cs.1, cs.2))) ∧
    (∀ (xs : List V) (st : LayerState V),
      (convBlock id cm tm l0 l1 l2).forwardSequence g xs st =
        (let ts := tm.forwardSequence g (xs.map l1.fwd) st
         let x1 := vadd g xs ts.1
         let cs := cm.forwardSequence g (x1.map l2.fwd) ts.2
         (vadd g x1 cs.1, cs.2))) := by
  have hbeq : (id == 0) = false := by
    cases id with
    | zero => exact absurd rfl hid
    | succ n => rfl
  refine ⟨by simp [convBlock, hbeq], ?_, ?_⟩
  · intro x st
    simp [Layer.forwardSingle, convBlock, hbeq]
  · intro xs st
    simp [Layer.forwardSequence, convBlock, hbeq]

/-! ### Concrete instances for the witnesses -/

def intAG : AG Int :=
  { add := fun a b => a + b
    sub := fun a b => a - b
    prod := fun a b => a * b
    div := fun a b => a - 2 * b
    maxT := fun a b => max a b
    exp := fun a => a + 1
    sigmoid := fun a => a + 2
    relu := fun a => max a 0
    square := fun a => a * a
    reverseSubOne := fun a => 1 - a
    mul := fun a b => a * b + 1
    halfScale := fun a => a - 3
    zeroVec := 0
    negSentinel := -9 }

def testTimeMix : TimeMix Int :=
  { key := 2, value := 3, receptance := 5, output := 7, timeDecay := 1,
    timeFirst := 2, timeMixK := 3, timeMixV := 4, timeMixR := 5 }

def testChanMix : ChannelMix Int :=
  { key := 2, value := 3, receptance := 4, timeMixK := 5, timeMixR := 6 }

def testLayer0 : Layer Int :=
  { ln0 := some ⟨fun v => v + 2⟩, ln1 := ⟨fun v => 2 * v⟩,
    ln2 := ⟨fun v => v - 1⟩, chanMix := testChanMix, timeMix := testTimeMix }

def testLayer1 : Layer Int :=
  { ln0 := none, ln1 := ⟨fun v => v + 3⟩, ln2 := ⟨fun v => 3 * v⟩,
    chanMix := testChanMix, timeMix := testTimeMix }

def testModel : Model Int :=
  { layers := [testLayer0, testLayer1],
    config := { dModel := 1, numLayers := 2, rescaleLayer := 1 } }

def testState : List (LayerState Int) :=
  [{ ffnXX := 0, attXX := 0, attAA := 0, attBB := 0, attPP := -9 },
   { ffnXX := 1, attXX := 2, attAA := 3, attBB := 4, attPP := 5 }]

/-- Witness for claim C1: the equivalence evaluated at a concrete two-layer
model on a concrete two-token sequence and state. -/
theorem claim_C1_witness :
    ([3, 4] : List Int) ≠ [] ∧
    testModel.forwardSequence intAG [3, 4] testState =
      testModel.forwardSingleIter intAG [3, 4] testState :=
  ⟨by simp,
    Model.forwardSequence_eq_forwardSingleIter intAG
      (fun a b => Int.mul_comm a b) testModel [3, 4] testState (by simp)⟩

/-- Witness for claim C9: the block of index 1 built by the converter has no
LN0 and computes the plain residual composition. -/
theorem claim_C9_witness :
    (1 : Nat) ≠ 0 ∧
    (convBlock 1 testChanMix testTimeMix ⟨fun v => v + 2⟩ ⟨fun v => 2 * v⟩
      ⟨fun v => v - 1⟩).ln0 = none ∧
    (convBlock 1 testChanMix testTimeMix ⟨fun v => v + 2⟩ ⟨fun v => 2 * v⟩
        ⟨fun v => v - 1⟩).forwardSingle intAG 3
        { ffnXX := 0, attXX := 0, attAA := 0, attBB := 0, attPP := -9 } =
      (let ts := testTimeMix.forwardSingle intAG ((fun v => 2 * v) 3)
        { ffnXX := 0, attXX := 0, attAA := 0, attBB := 0, attPP := -9 }
       let x1 := intAG.add 3 ts.1
       let cs := testChanMix.forwardSingle intAG ((fun v => v - 1) x1) ts.2
       (intAG.add x1 cs.1, cs.2)) := by
  refine ⟨by decide, ?_, ?_⟩
  · exact (claim_C9 intAG 1 (by decide) testChanMix testTimeMix _ _ _).1
  · exact (claim_C9 intAG 1 (by decide) testChanMix testTimeMix
      ⟨fun v => v + 2⟩ ⟨fun v => 2 * v⟩ ⟨fun v => v - 1⟩).2.1 3
      { ffnXX := 0, attXX := 0, attAA := 0, attBB := 0, attPP := -9 }


end Rwkv

/-! ## Package decoder: diversity control, selection, stop conditions

Embedding of src/decoder (decoder.go together with the diversity-control,
output-selection and channel-buffer files of the same package).  Logit vectors
are lists over Option K where none embeds the floating point value negative
infinity used by the package (spago float.Interface(math.Inf(-1))) and some x
embeds a finite float; K is an arbitrary linear ordered field.  The softmax
exponential is an abstract parameter e so that every definition stays
executable; the theorems assume only that e is positive, which Real.exp is. -/

namespace Decoding

variable {K : Type} [LinearOrderedField K]

/-- Floating point comparison on finite-or-negative-infinity values: none (the
embedded negative infinity) is below every finite value. -/
def ovLe : Option K → Option K → Bool
  | none, _ => true
  | some _, none => false
  | some x, some y => decide (x ≤ y)

/-- Strict floating point comparison, derived from ovLe. -/
def ovLt (a b : Option K) : Bool := !(ovLe b a)

/-- The softmax weight of one entry: exp of a finite value; exp of negative
infinity is zero. -/
def ovWeight (e : K → K) : Option K → K
  | none => 0
  | some x => e x

/-- spago Softmax on a vector that may contain negative infinities.  In exact
arithmetic the max-subtraction stabilization used by the float implementation
cancels, leaving weight over total weight. -/
def softmax (e : K → K) (l : List (Option K)) : List K :=
  let w := l.map (ovWeight e)
  w.map (fun x => x / w.sum)

/-- CumSum: running prefix sums. -/
def cumSumFrom (acc : K) : List K → List K
  | [] => []
  | v :: rest => (acc + v) :: cumSumFrom (acc + v) rest

def cumSum (l : List K) : List K := cumSumFrom 0 l

/-- spago Matrix.ArgMax: the index of the maximum entry, first occurrence
winning ties.  Running accumulator: current best index and best value. -/
def argMaxGo : List K → Nat → Nat → K → Nat
  | [], _, best, _ => best
  | v :: rest, i, best, bv =>
    if bv < v then argMaxGo rest (i + 1) i v else argMaxGo rest (i + 1) best bv

def argMax : List K → Nat
  | [] => 0
  | v :: rest => argMaxGo rest 1 0 v

/-- GreedyDecoding from the output-selection file: softmax, then argmax, then
report the chosen probability. -/
def GreedyDecoding (e : K → K) (logits : List (Option K)) :
    Except String (Nat × K) :=
  let probs := softmax e logits
  Except.ok (argMax probs, probs.getD (argMax probs) 0)

/-- The scan of one multinomial draw: subtract each probability from p in
order; the first index making p negative is selected. -/
def multinomialPick : List K → K → Nat → Option Nat
  | [], _, _ => none
  | v :: rest, p, i =>
    if p - v < 0 then some i else multinomialPick rest (p - v) (i + 1)

/-- MultinomialSampling from the output-selection file, for one drawn uniform
value r.  Go rejects numSamples larger than the vector and otherwise redraws
until the scan selects; a scan falling off the end (impossible for r in [0,1)
when the weights sum to one) is embedded as an error. -/
def MultinomialSampling (e : K → K) (r : K) (logits : List (Option K)) :
    Except String (Nat × K) :=
  let probs := softmax e logits
  if 1 > probs.length then
    Except.error "numSamples must be less than or equal to the size of the input"
  else
    match multinomialPick probs r 0 with
    | some i => Except.ok (i, probs.getD i 0)
    | none => Except.error "the multinomial scan did not select an index"

/-- OutputSelection: sampling picks MultinomialSampling, otherwise greedy. -/
def OutputSelection (sampling : Bool) (e : K → K) (r : K) :
    List (Option K) → Except String (Nat × K) :=
  if sampling then MultinomialSampling e r else GreedyDecoding e

/-- TemperatureFunc: divide the scores by the temperature (multiply by the
reciprocal).  Multiplying the embedded negative infinity by the positive
reciprocal leaves it infinite, hence Option.map. -/
def TemperatureFunc (temperature : K) :
    List (Option K) → List (Option K) :=
  if temperature = 1 then fun scores => scores
  else fun scores => scores.map (Option.map (fun v => v * (1 / temperature)))

/-- Stable descending sort of the scores, as produced by sort.Stable over the
reversed ordering in Go. -/
def sortDesc (l : List (Option K)) : List (Option K) :=
  l.mergeSort (fun a b => ovLe b a)

/-- TopKFunc: keep only the k highest scores.  Go selects the k-th largest
value (counting multiplicity) by popping a max-heap k times, embedded as the
entry at position k-1 of the descending sort; every score below it is replaced
by the filter value.  An empty input panics in Go (the heap pop); the getD
default is never reached in the theorems. -/
def TopKFunc (topK : Int) (filterValue : Option K)
    (scores : List (Option K)) : List (Option K) :=
  let k : Int := if (scores.length : Int) ≤ topK then scores.length else topK
  let minScore := (sortDesc scores).getD (k - 1).toNat filterValue
  scores.map (fun v => if ovLt v minScore then filterValue else v)

/-- TopPFunc: stable-sort the scores descending carrying their original
indices, softmax, cumulative sums, mark positions whose cumulative probability
exceeds p, optionally clear the first minSize marks, shift the mask right by
one so the first crossing position is kept, and scatter the removals back to
the original index order. -/
def TopPFunc (e : K → K) (topP : K) (filterValue : Option K) (minSize : Nat)
    (scores : List (Option K)) : List (Option K) :=
  let sorted := (scores.zip (List.range scores.length)).mergeSort
    (fun a b => ovLe b.1 a.1)
  let cumProbs := cumSum (softmax e (sorted.map Prod.fst))
  let mask0 := cumProbs.map (fun cp => decide (topP < cp))
  let mask1 := if minSize > 1 then
      mask0.enum.map (fun p => if p.1 < minSize then false else p.2)
    else mask0
  let mask := false :: mask1.dropLast
  (mask.zip (sorted.map Prod.snd)).foldl
    (fun out bi => if bi.1 then out.set bi.2 filterValue else out) scores

/-- The stage list built by OutputDiversityControl for valid parameters:
temperature (zero replaced by 0.01), then top-k, then top-p, each skipped at
its no-op parameter value; the filter value is negative infinity. -/
def stagesODC (e : K → K) (temp : K) (topK : Int) (topP : K) :
    List (List (Option K) → List (Option K)) :=
  (if temp ≠ 1 then
    [TemperatureFunc (if temp = 0 then (0.01 : K) else temp)] else []) ++
  (if topK ≠ 0 then [TopKFunc topK none] else []) ++
  (if topP ≠ 1 then [TopPFunc e topP none 1] else [])

/-- Applying the composed pipeline: each stage in order. -/
def runStages (stages : List (List (Option K) → List (Option K)))
    (logits : List (Option K)) : List (Option K) :=
  stages.foldl (fun l p => p l) logits

/-- OutputDiversityControl: validate the three parameters, then compose the
stage list. -/
def OutputDiversityControl (e : K → K) (temp : K) (topK : Int) (topP : K) :
    Except String (List (Option K) → List (Option K)) :=
  if temp < 0 ∨ temp > 1 then
    Except.error "invalid temperature value: must be between 0 and 1"
  else if topK < 0 then
    Except.error "invalid topK value: must be greater than or equal to 0"
  else if topP < 0 ∨ topP > 1 then
    Except.error "invalid topP value: must be between 0 and 1"
  else Except.ok (runStages (stagesODC e temp topK topP))

/-- DecodingOptions from decoder.go. -/
structure DecodingOptions (K : Type) where
  maxLen : Nat
  minLen : Nat
  stopSequencesIDs : List (List Nat)
  endTokenID : Nat
  skipEndTokenID : Bool
  temp : K
  topK : Int
  topP : K
  useSampling : Bool

/-- The decoder: the composed diversity pipeline plus the options. -/
structure Decoder (K : Type) where
  applyOutputControl : List (Option K) → List (Option K)
  opts : DecodingOptions K

/-- New: build the pipeline, propagating its validation error. -/
def New (e : K → K) (opts : DecodingOptions K) : Except String (Decoder K) :=
  match OutputDiversityControl e opts.temp opts.topK opts.topP with
  | Except.error err => Except.error err
  | Except.ok dc => Except.ok { applyOutputControl := dc, opts := opts }

/-- adjustLogits: while fewer than MinLen tokens have been generated, force
the end-token logit to negative infinity. -/
def adjustLogits (opts : DecodingOptions K) (logits : List (Option K))
    (sequenceLength : Nat) : List (Option K) :=
  if opts.minLen ≤ sequenceLength then logits
  else logits.set opts.endTokenID none

/-- hasStopSequence: some configured stop sequence is an exact suffix of the
generated sequence (skipping stop sequences longer than it). -/
def hasStopSequence (sequence : List Nat)
    (stopSequences : List (List Nat)) : Bool :=
  stopSequences.any fun stopSeq =>
    if sequence.length < stopSeq.length then false
    else decide (sequence.drop (sequence.length - stopSeq.length) = stopSeq)

/-- checkStopConditions: length against MaxLen first, then the end token, then
MinLen-gated stop sequences.  Go indexes the last element of the sequence and
panics on an empty one; every caller passes the sequence right after an
append, so a default of 0 stands in for the unreachable empty case. -/
def checkStopConditions (opts : DecodingOptions K)
    (sequence : List Nat) : Bool :=
  if opts.maxLen ≤ sequence.length then true
  else if sequence.getLastD 0 == opts.endTokenID then true
  else if opts.minLen ≤ sequence.length &&
      hasStopSequence sequence opts.stopSequencesIDs then true
  else false

/-- checkWriteConditions: emit unless the token is the end token and end-token
suppression was requested. -/
def checkWriteConditions (opts : DecodingOptions K) (tokenID : Nat) : Bool :=
  !(tokenID == opts.endTokenID && opts.skipEndTokenID)

/-- StepResult: one emitted token with the running score. -/
structure StepResult (K : Type) where
  tokenID : Nat
  sumNegLogProbs : K

/-- The generation loop of Decoder.Decode: per step, predict logits for the
current sequence (abstracted as logitsOf), adjust them below MinLen, run the
diversity pipeline, select a token (draws provides the per-step uniform value
used in sampling mode), append it, accumulate the negative log score, emit
subject to checkWriteConditions, and stop per checkStopConditions.  The fuel
argument bounds the iteration count (the Go loop is unbounded but cancellable;
every theorem about the loop holds for every fuel).  A selection error aborts
the loop without emitting, as in Go. -/
def decodeLoop (d : Decoder K) (e : K → K) (logFn : K → K)
    (logitsOf : List Nat → List (Option K)) (draws : Nat → K) :
    Nat → List Nat → K → List (StepResult K) × List Nat
  | 0, seq, _ => ([], seq)
  | fuel + 1, seq, sumNegLogProbs =>
    match OutputSelection d.opts.useSampling e (draws seq.length)
        (d.applyOutputControl (adjustLogits d.opts (logitsOf seq) seq.length)) with
    | Except.error _ => ([], seq)
    | Except.ok (tok, score) =>
      let seq2 := seq ++ [tok]
      let sum2 := sumNegLogProbs + -(logFn score)
      let emitted := if checkWriteConditions d.opts tok then
          [{ tokenID := tok, sumNegLogProbs := sum2 }] else []
      if checkStopConditions d.opts seq2 then (emitted, seq2)
      else
        let rest := decodeLoop d e logFn logitsOf draws fuel seq2 sum2
        (emitted ++ rest.1, rest.2)

/-- The same loop with the write gate removed: every step's pair reaches the
stream.  Used to state which steps the real loop suppresses. -/
def decodeLoopAll (d : Decoder K) (e : K → K) (logFn : K → K)
    (logitsOf : List Nat → List (Option K)) (draws : Nat → K) :
    Nat → List Nat → K → List (StepResult K) × List Nat
  | 0, seq, _ => ([], seq)
  | fuel + 1, seq, sumNegLogProbs =>
    match OutputSelection d.opts.useSampling e (draws seq.length)
        (d.applyOutputControl (adjustLogits d.opts (logitsOf seq) seq.length)) with
    | Except.error _ => ([], seq)
    | Except.ok (tok, score) =>
      let seq2 := seq ++ [tok]
      let sum2 := sumNegLogProbs + -(logFn score)
      let emitted := [StepResult.mk tok sum2]
      if checkStopConditions d.opts seq2 then (emitted, seq2)
      else
        let rest := decodeLoopAll d e logFn logitsOf draws fuel seq2 sum2
        (emitted ++ rest.1, rest.2)

/-! ### Claim C2: stop conditions -/

theorem hasStopSequence_iff (sequence : List Nat)
    (stopSequences : List (List Nat)) :
    hasStopSequence sequence stopSequences = true ↔
      ∃ stop ∈ stopSequences, stop <:+ sequence := by
  unfold hasStopSequence
  rw [List.any_eq_true]
  constructor
  · rintro ⟨stop, hmem, hcond⟩
    refine ⟨stop, hmem, ?_⟩
    by_cases hlen : sequence.length < stop.length
    · rw [if_pos hlen] at hcond
      exact absurd hcond (by simp)
    · rw [if_neg hlen] at hcond
      rw [List.suffix_iff_eq_drop]
      exact (of_decide_eq_true hcond).symm
  · rintro ⟨stop, hmem, hsuf⟩
    refine ⟨stop, hmem, ?_⟩
    have hlen : ¬ sequence.length < stop.length :=
      not_lt.mpr hsuf.length_le
    rw [if_neg hlen]
    exact decide_eq_true (List.suffix_iff_eq_drop.mp hsuf).symm

/-- Claim C2: after each generated token is appended, the generation loop
stops exactly when the sequence length has reached MaxLen, or the last chosen
token is the end token, or the length has reached MinLen and some configured
stop subsequence is an exact suffix of the generated sequence; the three
conditions are tested in this order and any of them terminates the loop. -/
theorem claim_C2 (opts : DecodingOptions K) (sequence : List Nat)
    (h : sequence ≠ []) :
    checkStopConditions opts sequence = true ↔
      (opts.maxLen ≤ sequence.length ∨
        sequence.getLast h = opts.endTokenID ∨
        (opts.minLen ≤ sequence.length ∧
          ∃ stop ∈ opts.stopSequencesIDs, stop <:+ sequence)) := by
  have hlast : sequence.getLastD 0 = sequence.getLast h := by
    rw [List.getLastD_eq_getLast?, List.getLast?_eq_getLast sequence h]
    rfl
  unfold checkStopConditions
  rw [hlast]
  by_cases h1 : opts.maxLen ≤ sequence.length
  · simp [h1]
  · rw [if_neg h1]
    by_cases h2 : sequence.getLast h = opts.endTokenID
    · simp [h2, h1]
    · have h2b : (sequence.getLast h == opts.endTokenID) = false := by
        simp [h2]
      rw [h2b]
      by_cases h3 : opts.minLen ≤ sequence.length
      · simp [h1, h2, h3, hasStopSequence_iff]
      · simp [h1, h2, h3]

/-- Witness for claim C2: a concrete sequence ending in the stop subsequence
[5, 6] halts generation. -/
theorem claim_C2_witness :
    ([7, 5, 6] : List Nat) ≠ [] ∧
    (checkStopConditions
        ({ maxLen := 10, minLen := 1, stopSequencesIDs := [[5, 6]],
           endTokenID := 0, skipEndTokenID := false, temp := 1, topK := 0,
           topP := 1, useSampling := false } : DecodingOptions Rat)
        [7, 5, 6] = true ↔
      (10 ≤ ([7, 5, 6] : List Nat).length ∨
        ([7, 5, 6] : List Nat).getLast (by simp) = 0 ∨
        (1 ≤ ([7, 5, 6] : List Nat).length ∧
          ∃ stop ∈ [[5, 6]], stop <:+ ([7, 5, 6] : List Nat)))) :=
  ⟨by simp, claim_C2 _ [7, 5, 6] (by simp)⟩

/-! ### Claim C7: write conditions -/

/-- Claim C7: at every decode step the chosen pair is written to the output
stream except when the chosen token equals the end token and end-token
suppression is requested; the emitted stream of the real loop is exactly the
checkWriteConditions-filter of the unconditional per-step stream, and the
generated sequence is unaffected by the gating. -/
theorem claim_C7 (d : Decoder K) (e logFn : K → K)
    (logitsOf : List Nat → List (Option K)) (draws : Nat → K) :
    ∀ (fuel : Nat) (seq : List Nat) (sum : K),
      (decodeLoop d e logFn logitsOf draws fuel seq sum).1 =
        (decodeLoopAll d e logFn logitsOf draws fuel seq sum).1.filter
          (fun sr => !(sr.tokenID == d.opts.endTokenID && d.opts.skipEndTokenID)) ∧
      (decodeLoop d e logFn logitsOf draws fuel seq sum).2 =
        (decodeLoopAll d e logFn logitsOf draws fuel seq sum).2 := by
  intro fuel
  induction fuel with
  | zero => intro seq sum; exact ⟨rfl, rfl⟩
  | succ fuel ih =>
    intro seq sum
    cases hsel : OutputSelection d.opts.useSampling e (draws seq.length)
        (d.applyOutputControl (adjustLogits d.opts (logitsOf seq) seq.length)) with
    | error msg =>
      simp [decodeLoop, decodeLoopAll, hsel]
    | ok ts =>
      obtain ⟨tok, score⟩ := ts
      obtain ⟨ih1, ih2⟩ := ih (seq ++ [tok]) (sum + -(logFn score))
      simp only [decodeLoop, decodeLoopAll, hsel]
      by_cases hstop : checkStopConditions d.opts (seq ++ [tok]) = true
      · simp only [hstop, if_true]
        constructor
        · by_cases hw : checkWriteConditions d.opts tok = true
          · simp only [hw, if_true]
            simp only [checkWriteConditions] at hw
            simp [List.filter, hw]
          · simp only [hw]
            simp only [checkWriteConditions] at hw
            simp only [Bool.not_eq_true] at hw
            simp [List.filter, hw]
        · simp
      · simp only [Bool.not_eq_true] at hstop
        simp only [hstop, Bool.false_eq_true, if_false]
        constructor
        · rw [List.filter_append, ih1]
          by_cases hw : checkWriteConditions d.opts tok = true
          · simp only [hw, if_true]
            simp only [checkWriteConditions] at hw
            simp [List.filter, hw]
          · simp only [hw]
            simp only [checkWriteConditions] at hw
            simp only [Bool.not_eq_true] at hw
            simp [List.filter, hw]
        · exact ih2

/-! ### Claim C5: pipeline construction -/

theorem runStages_append (s1 s2 : List (List (Option K) → List (Option K)))
    (l : List (Option K)) :
    runStages (s1 ++ s2) l = runStages s2 (runStages s1 l) :=
  List.foldl_append _ _ _ _

/-- Claim C5: OutputDiversityControl (and hence decoder construction New)
returns an error exactly when the temperature is outside [0, 1], or top-k is
negative, or top-p is outside [0, 1]; in the valid case a temperature of
exactly zero is replaced by the positive value 0.01 before the division stage,
and the pipeline applies temperature, then top-k, then top-p, skipping each
stage at its no-op parameter (temperature 1, top-k 0, top-p 1). -/
theorem claim_C5 (e : K → K) (opts : DecodingOptions K) :
    ((∃ msg, OutputDiversityControl e opts.temp opts.topK opts.topP =
        Except.error msg) ↔
      (opts.temp < 0 ∨ 1 < opts.temp ∨ opts.topK < 0 ∨ opts.topP < 0 ∨
        1 < opts.topP)) ∧
    ((∃ msg, New e opts = Except.error msg) ↔
      (opts.temp < 0 ∨ 1 < opts.temp ∨ opts.topK < 0 ∨ opts.topP < 0 ∨
        1 < opts.topP)) ∧
    (0 ≤ opts.temp → 0 < (if opts.temp = 0 then (0.01 : K) else opts.temp)) ∧
    (¬(opts.temp < 0 ∨ 1 < opts.temp) → ¬(opts.topK < 0) →
      ¬(opts.topP < 0 ∨ 1 < opts.topP) →
      ∀ logits, runStages (stagesODC e opts.temp opts.topK opts.topP) logits =
        (if opts.topP ≠ 1 then TopPFunc e opts.topP none 1 else id)
          ((if opts.topK ≠ 0 then TopKFunc opts.topK none else id)
            ((if opts.temp ≠ 1 then
              TemperatureFunc (if opts.temp = 0 then (0.01 : K) else opts.temp)
            else id) logits))) := by
  have herr : (∃ msg, OutputDiversityControl e opts.temp opts.topK opts.topP =
      Except.error msg) ↔
      (opts.temp < 0 ∨ 1 < opts.temp ∨ opts.topK < 0 ∨ opts.topP < 0 ∨
        1 < opts.topP) := by
    unfold OutputDiversityControl
    by_cases h1 : opts.temp < 0 ∨ opts.temp > 1
    · rw [if_pos h1]
      exact ⟨fun _ => by tauto, fun _ => ⟨_, rfl⟩⟩
    · rw [if_neg h1]
      by_cases h2 : opts.topK < 0
      · rw [if_pos h2]
        exact ⟨fun _ => by tauto, fun _ => ⟨_, rfl⟩⟩
      · rw [if_neg h2]
        by_cases h3 : opts.topP < 0 ∨ opts.topP > 1
        · rw [if_pos h3]
          exact ⟨fun _ => by tauto, fun _ => ⟨_, rfl⟩⟩
        · rw [if_neg h3]
          constructor
          · rintro ⟨msg, hmsg⟩
            exact absurd hmsg (by simp)
          · intro h
            exact absurd h (by tauto)
  refine ⟨herr, ?_, ?_, ?_⟩
  · unfold New
    constructor
    · rintro ⟨msg, hmsg⟩
      cases hodc : OutputDiversityControl e opts.temp opts.topK opts.topP with
      | error m => exact herr.mp ⟨m, hodc⟩
      | ok dc => rw [hodc] at hmsg; exact absurd hmsg (by simp)
    · intro h
      obtain ⟨msg, hmsg⟩ := herr.mpr h
      rw [hmsg]
      exact ⟨msg, rfl⟩
  · intro htemp
    by_cases h0 : opts.temp = 0
    · rw [if_pos h0]
      norm_num
    · rw [if_neg h0]
      exact lt_of_le_of_ne htemp (Ne.symm h0)
  · intro h1 h2 h3 logits
    unfold stagesODC
    rw [runStages_append, runStages_append]
    by_cases ht : opts.temp ≠ 1 <;> by_cases hk : opts.topK ≠ 0 <;>
      by_cases hp : opts.topP ≠ 1 <;>
      simp [ht, hk, hp, runStages]

/-- Witness for claim C5: valid parameters (temperature 0, top-k 2, top-p
one half) build the pipeline with the zero temperature replaced by 0.01. -/
theorem claim_C5_witness :
    (∃ msg, OutputDiversityControl (fun x : Rat => x + 1) 0 2 (1/2) =
        Except.error msg) ↔
      ((0 : Rat) < 0 ∨ (1 : Rat) < 0 ∨ (2 : Int) < 0 ∨ (1/2 : Rat) < 0 ∨
        (1 : Rat) < 1/2) :=
  (claim_C5 (fun x : Rat => x + 1)
    { maxLen := 5, minLen := 0, stopSequencesIDs := [], endTokenID := 0,
      skipEndTokenID := false, temp := 0, topK := 2, topP := 1/2,
      useSampling := false }).1

/-! ### Order toolkit for embedded floats -/

theorem ovLe_refl (a : Option K) : ovLe a a = true := by
  cases a with
  | none => rfl
  | some x => simp [ovLe]

theorem ovLe_trans {a b c : Option K} (h1 : ovLe a b = true)
    (h2 : ovLe b c = true) : ovLe a c = true := by
  cases a with
  | none => rfl
  | some x =>
    cases b with
    | none => simp [ovLe] at h1
    | some y =>
      cases c with
      | none => simp [ovLe] at h2
      | some z =>
        simp [ovLe] at h1 h2 ⊢
        exact le_trans h1 h2

theorem ovLe_total (a b : Option K) : (ovLe a b || ovLe b a) = true := by
  cases a with
  | none => rfl
  | some x =>
    cases b with
    | none => rfl
    | some y =>
      simp [ovLe]
      exact le_total x y

theorem ovLt_eq_false_iff {a b : Option K} :
    ovLt a b = false ↔ ovLe b a = true := by
  unfold ovLt
  cases h : ovLe b a <;> simp

theorem ovLt_eq_true_iff {a b : Option K} :
    ovLt a b = true ↔ ovLe b a = false := by
  unfold ovLt
  cases h : ovLe b a <;> simp

theorem ovLt_of_ovLt_of_ovLe {a b c : Option K} (h1 : ovLt a b = true)
    (h2 : ovLe b c = true) : ovLt a c = true := by
  rw [ovLt_eq_true_iff] at h1 ⊢
  cases hca : ovLe c a with
  | false => rfl
  | true => exact absurd (ovLe_trans h2 hca) (by simp [h1])

theorem sortDesc_perm (l : List (Option K)) : (sortDesc l).Perm l :=
  List.mergeSort_perm l _

theorem sortDesc_sorted (l : List (Option K)) :
    (sortDesc l).Pairwise (fun a b => ovLe b a = true) :=
  @List.sorted_mergeSort _ (fun a b => ovLe b a)
    (fun _ _ _ h1 h2 => ovLe_trans h2 h1)
    (fun a b => ovLe_total b a) l

theorem sortDesc_length (l : List (Option K)) :
    (sortDesc l).length = l.length := (sortDesc_perm l).length_eq

/-! ### Claim C4: top-k filtering -/

/-- Claim C4: for every scores vector and every k at least 1, top-k filtering
keeps exactly the entries whose value is among the k highest (an entry
survives if and only if fewer than k entries are strictly greater than it,
which for distinct values keeps exactly the k highest logits) and replaces
every other entry with negative infinity; and when k is at least the vector
size the filter returns every logit unchanged. -/
theorem claim_C4 (scores : List (Option K)) (topK : Int) (hk : 1 ≤ topK)
    (hne : scores ≠ []) :
    (∀ i (hi : i < scores.length),
      (TopKFunc topK none scores).getD i none =
        (if ((scores.filter (fun v => ovLt (scores.getD i none) v)).length : Int)
            < topK
          then scores.getD i none else none)) ∧
    ((scores.length : Int) ≤ topK → TopKFunc topK none scores = scores) := by
  have hlen0 : 0 < scores.length := List.length_pos.mpr hne
  -- The clamped selection count and its position in the descending sort.
  set k : Int := if (scores.length : Int) ≤ topK then (scores.length : Int)
    else topK with hkdef
  have hk1 : 1 ≤ k := by
    rw [hkdef]
    split
    · exact_mod_cast hlen0
    · exact hk
  have hkle : k ≤ (scores.length : Int) := by
    rw [hkdef]
    split
    · exact le_refl _
    · omega
  set idx : Nat := (k - 1).toNat with hidxdef
  have hidxlt : idx < scores.length := by omega
  have hidxlt2 : idx < (sortDesc scores).length := by
    rw [sortDesc_length]; exact hidxlt
  have hidxk : (idx : Int) = k - 1 := by omega
  set d := sortDesc scores with hd
  have hmin : (sortDesc scores).getD idx none = d.get ⟨idx, hidxlt2⟩ := by
    rw [List.getD_eq_getElem?_getD, List.getElem?_eq_getElem hidxlt2]
    rfl
  set minScore := d.get ⟨idx, hidxlt2⟩ with hms
  have hsorted := sortDesc_sorted scores
  have hpair := List.pairwise_iff_get.mp hsorted
  -- Counting strictly greater entries is invariant under the sorting
  -- permutation.
  have hcount : ∀ x : Option K,
      (scores.filter (fun v => ovLt x v)).length =
        (d.filter (fun v => ovLt x v)).length := by
    intro x
    have := (sortDesc_perm scores).symm.countP_eq (fun v => ovLt x v)
    simpa [List.countP_eq_length_filter] using this
  -- An entry is at least minScore exactly when fewer than k entries exceed it.
  have hkey : ∀ x : Option K, x ∈ scores →
      (ovLt x minScore = false ↔
        ((scores.filter (fun v => ovLt x v)).length : Int) < k) := by
    intro x hx
    rw [hcount x]
    constructor
    · intro hxe
      rw [ovLt_eq_false_iff] at hxe
      -- every entry strictly above x sits strictly before position idx
      have hsub : ∀ j (hj : j < d.length),
          ovLt x (d.get ⟨j, hj⟩) = true → j < idx := by
        intro j hj hgt
        by_contra hge
        push_neg at hge
        have hle : ovLe (d.get ⟨j, hj⟩) minScore = true := by
          rcases lt_or_eq_of_le hge with hlt | heq
          · exact hpair ⟨idx, hidxlt2⟩ ⟨j, hj⟩ hlt
          · rw [hms]
            have : (⟨idx, hidxlt2⟩ : Fin d.length) = ⟨j, hj⟩ := by
              exact Fin.ext heq
            rw [this]
            exact ovLe_refl _
        have : ovLt x (d.get ⟨j, hj⟩) = false := by
          rw [ovLt_eq_false_iff]
          exact ovLe_trans hle hxe
        rw [this] at hgt
        exact absurd hgt (by simp)
      -- hence at most idx entries are counted
      have hbound : (d.filter (fun v => ovLt x v)).length ≤ idx := by
        have hdecomp : d = d.take idx ++ d.drop idx := (List.take_append_drop _ _).symm
        rw [hdecomp, List.filter_append, List.length_append]
        have hdrop : (List.filter (fun v => ovLt x v) (d.drop idx)).length = 0 := by
          rw [List.length_eq_zero]
          rw [List.filter_eq_nil_iff]
          intro v hv
          obtain ⟨m, hvm⟩ := List.get_of_mem hv
          have hmidx : idx + (m : Nat) < d.length := by
            have hmlt := m.isLt
            have hdl : (d.drop idx).length = d.length - idx :=
              List.length_drop _ _
            omega
          have hveq : v = d.get ⟨idx + (m : Nat), hmidx⟩ := by
            rw [← hvm]
            simp only [List.get_eq_getElem]
            exact List.getElem_drop d
          intro hcontra
          have := hsub (idx + (m : Nat)) hmidx (by rw [← hveq]; exact hcontra)
          omega
        have htake : (List.filter (fun v => ovLt x v) (d.take idx)).length ≤ idx := by
          calc (List.filter (fun v => ovLt x v) (d.take idx)).length
              ≤ (d.take idx).length := List.length_filter_le _ _
            _ ≤ idx := by
                rw [List.length_take]
                exact min_le_left _ _
        omega
      have : ((d.filter (fun v => ovLt x v)).length : Int) ≤ (idx : Int) := by
        exact_mod_cast hbound
      omega
    · intro hcnt
      by_contra hcontra
      have hxlt : ovLt x minScore = true := by
        cases h : ovLt x minScore with
        | true => rfl
        | false => exact absurd h hcontra
      -- then every position up to idx is strictly above x
      have hall : ∀ v ∈ d.take (idx + 1), ovLt x v = true := by
        intro v hv
        obtain ⟨m, hvm⟩ := List.get_of_mem hv
        have hmlen : (d.take (idx + 1)).length = idx + 1 := by
          rw [List.length_take]
          have : idx + 1 ≤ d.length := by
            rw [sortDesc_length]
            omega
          omega
        have hmidx : (m : Nat) < idx + 1 := by
          have := m.isLt
          omega
        have hmd : (m : Nat) < d.length := by
          rw [sortDesc_length]
          omega
        have hveq : v = d.get ⟨m, hmd⟩ := by
          rw [← hvm]
          simp only [List.get_eq_getElem]
          exact List.getElem_take d
        rw [hveq]
        have hle : ovLe minScore (d.get ⟨m, hmd⟩) = true := by
          rcases Nat.lt_or_ge (m : Nat) idx with hlt | hge
          · exact hpair ⟨m, hmd⟩ ⟨idx, hidxlt2⟩ hlt
          · have : (m : Nat) = idx := by omega
            rw [hms]
            have heq : (⟨m, hmd⟩ : Fin d.length) = ⟨idx, hidxlt2⟩ := Fin.ext this
            rw [heq]
            exact ovLe_refl _
        exact ovLt_of_ovLt_of_ovLe hxlt hle
      have hcnt2 : idx + 1 ≤ (d.filter (fun v => ovLt x v)).length := by
        have hdecomp : d = d.take (idx + 1) ++ d.drop (idx + 1) :=
          (List.take_append_drop _ _).symm
        conv_rhs => rw [hdecomp]
        rw [List.filter_append, List.length_append]
        have htake : (List.filter (fun v => ovLt x v) (d.take (idx + 1))).length
            = idx + 1 := by
          have hfe : List.filter (fun v => ovLt x v) (d.take (idx + 1)) =
              d.take (idx + 1) := List.filter_eq_self.mpr hall
          rw [hfe, List.length_take]
          have : idx + 1 ≤ d.length := by
            rw [sortDesc_length]
            omega
          omega
        omega
      have : (idx : Int) + 1 ≤ ((d.filter (fun v => ovLt x v)).length : Int) := by
        exact_mod_cast hcnt2
      omega
  have hout0 : TopKFunc topK none scores =
      scores.map (fun v => if ovLt v minScore = true then none else v) := by
    have h1 : TopKFunc topK none scores =
        scores.map (fun v => if ovLt v ((sortDesc scores).getD
          (((if (scores.length : Int) ≤ topK then (scores.length : Int)
            else topK) - 1).toNat) none) = true then none else v) := rfl
    rw [h1, ← hkdef, ← hidxdef, hmin]
  constructor
  · intro i hi
    have hxi : scores.getD i none = scores[i] := by
      rw [List.getD_eq_getElem?_getD, List.getElem?_eq_getElem hi]
      rfl
    have hmem : scores.getD i none ∈ scores := by
      rw [hxi]
      exact List.getElem_mem _
    have hout : (TopKFunc topK none scores).getD i none =
        (if ovLt (scores.getD i none) minScore = true then none
          else scores.getD i none) := by
      rw [hout0, hxi]
      rw [List.getD_eq_getElem?_getD, List.getElem?_map,
        List.getElem?_eq_getElem hi]
      rfl
    rw [hout]
    -- compare the two guards
    by_cases hsurv : ovLt (scores.getD i none) minScore = false
    · rw [hsurv]
      have hc := (hkey _ hmem).mp hsurv
      have hck : ((scores.filter
          (fun v => ovLt (scores.getD i none) v)).length : Int) < topK := by
        rw [hkdef] at hc
        split at hc
        · have hlt : ((scores.filter
              (fun v => ovLt (scores.getD i none) v)).length : Int) <
              (scores.length : Int) := hc
          omega
        · exact hc
      rw [if_neg (by simp), if_pos hck]
    · have hsurv2 : ovLt (scores.getD i none) minScore = true := by
        cases h : ovLt (scores.getD i none) minScore with
        | true => rfl
        | false => exact absurd h hsurv
      rw [hsurv2]
      have hc : ¬ (((scores.filter
          (fun v => ovLt (scores.getD i none) v)).length : Int) < k) := by
        intro hcl
        have := (hkey _ hmem).mpr hcl
        rw [this] at hsurv2
        exact absurd hsurv2 (by simp)
      have hck : ¬ (((scores.filter
          (fun v => ovLt (scores.getD i none) v)).length : Int) < topK) := by
        intro hcl
        apply hc
        rw [hkdef]
        split
        · have hle2 : (scores.filter
              (fun v => ovLt (scores.getD i none) v)).length ≤ scores.length :=
            List.length_filter_le _ _
          have hmemf : scores.getD i none ∉ scores.filter
              (fun v => ovLt (scores.getD i none) v) := by
            intro hmf
            have := List.of_mem_filter hmf
            rw [ovLt_eq_true_iff] at this
            rw [ovLe_refl] at this
            exact absurd this (by simp)
          have hlt2 : (scores.filter
              (fun v => ovLt (scores.getD i none) v)).length < scores.length := by
            rcases lt_or_eq_of_le hle2 with h | h
            · exact h
            · exfalso
              have := (List.filter_length_eq_length).mp h
              exact absurd (this _ hmem) (by
                rw [ovLt_eq_true_iff, ovLe_refl]
                simp)
          exact_mod_cast hlt2
        · exact hcl
      rw [if_pos rfl, if_neg hck]
  · intro hbig
    have hkl : k = (scores.length : Int) := by
      rw [hkdef]
      split
      · rfl
      · omega
    have hidxl : idx = scores.length - 1 := by omega
    -- minScore is the minimum entry, so nothing is filtered.
    have hminle : ∀ v ∈ scores, ovLe minScore v = true := by
      intro v hv
      have hvd : v ∈ d := (sortDesc_perm scores).mem_iff.mpr hv
      obtain ⟨m, hvm⟩ := List.get_of_mem hvd
      rw [← hvm, hms]
      rcases Nat.lt_or_ge (m : Nat) idx with hlt | hge
      · exact hpair ⟨m, m.isLt⟩ ⟨idx, hidxlt2⟩ hlt
      · have hmlt : (m : Nat) < d.length := m.isLt
        have hdlen : d.length = scores.length := sortDesc_length scores
        have : (m : Nat) = idx := by omega
        have heq : (⟨idx, hidxlt2⟩ : Fin d.length) = ⟨m, m.isLt⟩ :=
          Fin.ext this.symm
        rw [heq]
        exact ovLe_refl _
    rw [hout0]
    have : ∀ v ∈ scores, (if ovLt v minScore = true then none else v) = v := by
      intro v hv
      have : ovLt v minScore = false := by
        rw [ovLt_eq_false_iff]
        exact hminle v hv
      simp [this]
    calc scores.map (fun v => if ovLt v minScore = true then none else v)
        = scores.map id := List.map_congr_left this
      _ = scores := List.map_id scores

/-! ### Claim C3: top-p (nucleus) filtering -/

theorem cumSumFrom_length (acc : K) (l : List K) :
    (cumSumFrom acc l).length = l.length := by
  induction l generalizing acc with
  | nil => rfl
  | cons v rest ih => simp [cumSumFrom, ih]

theorem cumSum_length (l : List K) : (cumSum l).length = l.length :=
  cumSumFrom_length 0 l

theorem softmax_length (e : K → K) (l : List (Option K)) :
    (softmax e l).length = l.length := by
  simp [softmax]

theorem softmax_nonneg (e : K → K) (he : ∀ x, 0 < e x)
    (l : List (Option K)) : ∀ x ∈ softmax e l, 0 ≤ x := by
  intro x hx
  simp only [softmax, List.mem_map] at hx
  obtain ⟨w, hw, rfl⟩ := hx
  obtain ⟨v, _, rfl⟩ := hw
  have hwn : ∀ u : Option K, 0 ≤ ovWeight e u := by
    intro u
    cases u with
    | none => exact le_refl 0
    | some y => exact le_of_lt (he y)
  refine div_nonneg (hwn v) ?_
  exact List.sum_nonneg (fun y hy => by
    obtain ⟨u, _, rfl⟩ := List.mem_map.mp hy
    exact hwn u)

theorem cumSumFrom_chain (l : List K) (hl : ∀ v ∈ l, 0 ≤ v) :
    ∀ acc : K, List.Chain' (· ≤ ·) (cumSumFrom acc l) := by
  induction l with
  | nil => intro acc; simp [cumSumFrom]
  | cons v rest ih =>
    intro acc
    have hrest : ∀ u ∈ rest, 0 ≤ u := fun u hu => hl u (List.mem_cons_of_mem _ hu)
    cases rest with
    | nil => simp [cumSumFrom]
    | cons w ws =>
      refine List.Chain'.cons ?_ (ih hrest (acc + v))
      show acc + v ≤ acc + v + w
      have : 0 ≤ w := hrest w (List.mem_cons_self _ _)
      linarith

/-- The index of the first cumulative probability exceeding the threshold
(the length when none does): the last sorted position the spec keeps. -/
def firstCrossIdx (p : K) : List K → Nat
  | [] => 0
  | c :: rest => if p < c then 0 else firstCrossIdx p rest + 1

theorem firstCrossIdx_le_of_lt (p : K) :
    ∀ (l : List K) (m : Nat) (hm : m < l.length), p < l[m] →
      firstCrossIdx p l ≤ m := by
  intro l
  induction l with
  | nil => intro m hm; simp at hm
  | cons c rest ih =>
    intro m hm hp
    unfold firstCrossIdx
    by_cases hc : p < c
    · simp [hc]
    · rw [if_neg hc]
      cases m with
      | zero => exact absurd hp hc
      | succ m0 =>
        have := ih m0 (by simpa using hm) (by simpa using hp)
        omega

theorem lt_firstCrossIdx_of_not_lt (p : K) :
    ∀ (l : List K) (m : Nat), m < l.length →
      (∀ i (hi : i < l.length), i ≤ m → ¬ p < l[i]) →
      m < firstCrossIdx p l := by
  intro l
  induction l with
  | nil => intro m hm; simp at hm
  | cons c rest ih =>
    intro m hm hall
    unfold firstCrossIdx
    have hc : ¬ p < c := by
      have := hall 0 (by simp) (by omega)
      simpa using this
    rw [if_neg hc]
    cases m with
    | zero => omega
    | succ m0 =>
      have := ih m0 (by simpa using hm) (fun i hi hle => by
        have := hall (i + 1) (by simpa using hi) (by omega)
        simpa using this)
      omega

/-- The shift-by-one removal mask of the code equals the keep-the-prefix mask
of the spec, for every monotone cumulative-probability vector. -/
theorem mask_shift_eq_firstCross (p : K) (l : List K) (hne : l ≠ [])
    (hmono : List.Chain' (· ≤ ·) l) :
    false :: (l.map (fun c => decide (p < c))).dropLast =
      (List.range l.length).map (fun m => decide (firstCrossIdx p l < m)) := by
  have hpw : List.Pairwise (· ≤ ·) l := List.chain'_iff_pairwise.mp hmono
  have hget := List.pairwise_iff_get.mp hpw
  have hlen0 : 0 < l.length := List.length_pos.mpr hne
  apply List.ext_getElem
  · simp [List.length_dropLast]
    omega
  · intro m hm1 hm2
    cases m with
    | zero =>
      simp
    | succ m0 =>
      have hm0 : m0 < l.length - 1 := by
        simpa [List.length_dropLast] using hm1
      have hm0l : m0 < l.length := by omega
      rw [List.getElem_cons_succ, List.getElem_dropLast, List.getElem_map,
        List.getElem_map, List.getElem_range]
      by_cases hp : p < l[m0]
      · have h1 : firstCrossIdx p l ≤ m0 := firstCrossIdx_le_of_lt p l m0 hm0l hp
        have : firstCrossIdx p l < m0 + 1 := by omega
        simp [hp, this]
      · have h2 : m0 < firstCrossIdx p l := by
          refine lt_firstCrossIdx_of_not_lt p l m0 hm0l ?_
          intro i hi hle
          intro hcon
          apply hp
          rcases lt_or_eq_of_le hle with hlt | heq
          · have hmono2 : l[i] ≤ l[m0] :=
              hget ⟨i, hi⟩ ⟨m0, hm0l⟩ hlt
            exact lt_of_lt_of_le hcon hmono2
          · subst heq
            exact hcon
        have : ¬ (firstCrossIdx p l < m0 + 1) := by omega
        simp [hp, this]

/-- The spec-side description of nucleus filtering: sort descending with the
original indices, softmax and cumulative probabilities, keep the smallest
prefix whose cumulative probability exceeds p (always at least the first
position), remove every later sorted position, scatter back to the original
index order. -/
def topPSpec (e : K → K) (topP : K) (filterValue : Option K)
    (scores : List (Option K)) : List (Option K) :=
  let sorted := (scores.zip (List.range scores.length)).mergeSort
    (fun a b => ovLe b.1 a.1)
  let cumProbs := cumSum (softmax e (sorted.map Prod.fst))
  let firstCross := firstCrossIdx topP cumProbs
  let mask := (List.range cumProbs.length).map (fun m => decide (firstCross < m))
  (mask.zip (sorted.map Prod.snd)).foldl
    (fun out bi => if bi.1 then out.set bi.2 filterValue else out) scores

/-- Claim C3: for every logits vector, the top-p filter of the code (softmax
and cumulative probabilities over the descending sort, removal mask shifted
right by one so that the first threshold-crossing token survives and at least
one token is always kept, scattered back to original indices as negative
infinity) computes exactly the spec's smallest-prefix-over-the-threshold
filter; and with p = 1 the pipeline builds no top-p stage at all, so the
logits pass through it unchanged. -/
theorem claim_C3 (e : K → K) (he : ∀ x, 0 < e x) (topP : K) :
    (∀ scores : List (Option K),
      TopPFunc e topP none 1 scores = topPSpec e topP none scores) ∧
    (∀ (temp : K) (topK : Int),
      stagesODC e temp topK 1 =
        (if temp ≠ 1 then
          [TemperatureFunc (if temp = 0 then (0.01 : K) else temp)] else []) ++
        (if topK ≠ 0 then [TopKFunc topK none] else [])) := by
  constructor
  · intro scores
    by_cases hsc : scores = []
    · subst hsc
      simp [TopPFunc, topPSpec, List.mergeSort_nil]
    · have hne : scores ≠ [] := hsc
      have hlen0 : 0 < scores.length := List.length_pos.mpr hne
      simp only [TopPFunc, topPSpec]
      have h1 : ¬ (1 > 1) := by omega
      rw [if_neg h1]
      set sorted := (scores.zip (List.range scores.length)).mergeSort
        (fun a b => ovLe b.1 a.1) with hsorted
      have hslen : sorted.length = scores.length := by
        rw [hsorted, (List.mergeSort_perm _ _).length_eq, List.length_zip,
          List.length_range, min_self]
      set cumProbs := cumSum (softmax e (sorted.map Prod.fst)) with hcp
      have hcplen : cumProbs.length = scores.length := by
        rw [hcp, cumSum_length, softmax_length, List.length_map, hslen]
      have hcpne : cumProbs ≠ [] := by
        intro hnil
        rw [hnil] at hcplen
        simp at hcplen
        omega
      have hmono : List.Chain' (· ≤ ·) cumProbs := by
        rw [hcp]
        exact cumSumFrom_chain _ (softmax_nonneg e he _) 0
      have hmask := mask_shift_eq_firstCross topP cumProbs hcpne hmono
      rw [hmask, hcplen]
  · intro temp topK
    unfold stagesODC
    simp

/-- Witness for claim C3: the filter and its spec at a concrete vector. -/
theorem claim_C3_witness :
    TopPFunc (fun _ : Rat => 1) (1/2) none 1 [some 1, some 0] =
      topPSpec (fun _ : Rat => 1) (1/2) none [some 1, some 0] :=
  (claim_C3 (fun _ : Rat => 1)
    (fun _ => one_pos) (1/2)).1 [some 1, some 0]

/-- Witness for claim C4: the entry of value 3 (two entries strictly above it,
k = 2) is filtered at a concrete vector. -/
theorem claim_C4_witness :
    (1 : Int) ≤ 2 ∧
    (TopKFunc 2 none ([some 5, none, some 3, some 7] :
        List (Option Rat))).getD 2 none =
      (if ((([some 5, none, some 3, some 7] : List (Option Rat)).filter
          (fun v => ovLt (([some 5, none, some 3, some 7] :
            List (Option Rat)).getD 2 none) v)).length : Int) < 2
        then ([some 5, none, some 3, some 7] : List (Option Rat)).getD 2 none
        else none) :=
  ⟨by decide,
    (claim_C4 [some 5, none, some 3, some 7] 2 (by decide)
      (by simp)).1 2 (by simp)⟩


/-! ### Claim C6: end-token suppression before MinLen

The proof tracks two invariants of a logit vector through the diversity
pipeline: the end-token slot holds negative infinity, and some slot holds a
finite value.  Every stage preserves both, softmax turns them into a zero
probability at the end slot and a positive probability elsewhere, and neither
the argmax nor the multinomial scan can land on a zero-probability slot. -/

theorem getD_ne_none_lt {l : List (Option K)} {j : Nat}
    (h : l.getD j none ≠ none) : j < l.length := by
  by_contra hge
  rw [List.getD_eq_getElem?_getD, List.getElem?_eq_none (by omega)] at h
  exact h rfl

theorem getD_set_none_self (l : List (Option K)) (i : Nat) :
    (l.set i none).getD i none = none := by
  rw [List.getD_eq_getElem?_getD]
  by_cases hi : i < l.length
  · rw [List.getElem?_set_self hi]
    rfl
  · rw [List.getElem?_eq_none (by rw [List.length_set]; omega)]
    rfl

theorem getD_set_ne (l : List (Option K)) {i j : Nat} (h : i ≠ j)
    (v : Option K) : (l.set i v).getD j none = l.getD j none := by
  rw [List.getD_eq_getElem?_getD, List.getD_eq_getElem?_getD,
    List.getElem?_set_ne h]

theorem getD_set_none (l : List (Option K)) (i t : Nat)
    (h : l.getD t none = none) :
    (l.set i (none : Option K)).getD t none = none := by
  by_cases hit : i = t
  · subst hit; exact getD_set_none_self l i
  · rw [getD_set_ne l hit]; exact h

theorem getD_map_of_lt {α β : Type} (f : α → β) (l : List α) (da : α)
    (db : β) {j : Nat} (hj : j < l.length) :
    (l.map f).getD j db = f (l.getD j da) := by
  rw [List.getD_eq_getElem?_getD, List.getElem?_map,
    List.getElem?_eq_getElem hj, List.getD_eq_getElem l da hj]
  rfl

/-! The scatter fold of TopPFunc with the negative-infinity filter value:
it can only erase entries, and it never touches an index absent from its
marked pair list. -/

theorem foldl_set_getD_none (pairs : List (Bool × Nat))
    (out : List (Option K)) (t : Nat) (h : out.getD t none = none) :
    (pairs.foldl (fun out bi =>
        if bi.1 then out.set bi.2 (none : Option K) else out) out).getD t none
      = none := by
  induction pairs generalizing out with
  | nil => exact h
  | cons p ps ih =>
    rw [List.foldl_cons]
    apply ih
    by_cases hp : p.1 = true
    · rw [if_pos hp]; exact getD_set_none out p.2 t h
    · rw [if_neg hp]; exact h

theorem foldl_set_getD_eq (pairs : List (Bool × Nat))
    (out : List (Option K)) (t : Nat)
    (h : ∀ p ∈ pairs, p.1 = true → p.2 ≠ t) :
    (pairs.foldl (fun out bi =>
        if bi.1 then out.set bi.2 (none : Option K) else out) out).getD t none
      = out.getD t none := by
  induction pairs generalizing out with
  | nil => rfl
  | cons p ps ih =>
    rw [List.foldl_cons, ih _ (fun q hq => h q (List.mem_cons_of_mem p hq))]
    by_cases hp : p.1 = true
    · rw [if_pos hp, getD_set_ne out (h p (List.mem_cons_self p ps) hp)]
    · rw [if_neg hp]

/-! Softmax entry by entry. -/

theorem softmax_getD (e : K → K) (l : List (Option K)) (j : Nat) :
    (softmax e l).getD j 0 =
      ovWeight e (l.getD j none) / (l.map (ovWeight e)).sum := by
  by_cases hj : j < l.length
  · have h1 : (softmax e l).getD j 0 =
        ovWeight e (l.getD j none) / (l.map (ovWeight e)).sum := by
      show ((l.map (ovWeight e)).map
          (fun x => x / (l.map (ovWeight e)).sum)).getD j 0 = _
      rw [getD_map_of_lt _ _ 0 _ (by rw [List.length_map]; exact hj),
        getD_map_of_lt _ _ none _ hj]
    exact h1
  · rw [List.getD_eq_getElem?_getD, List.getElem?_eq_none
      (by simp [softmax]; omega)]
    rw [List.getD_eq_getElem?_getD, List.getElem?_eq_none (by omega)]
    simp [ovWeight]

theorem ovWeight_nonneg (e : K → K) (he : ∀ x, 0 < e x) (v : Option K) :
    0 ≤ ovWeight e v := by
  cases v with
  | none => exact le_refl 0
  | some x => exact le_of_lt (he x)

theorem weightSum_nonneg (e : K → K) (he : ∀ x, 0 < e x)
    (l : List (Option K)) : 0 ≤ (l.map (ovWeight e)).sum := by
  apply List.sum_nonneg
  intro x hx
  obtain ⟨v, _, rfl⟩ := List.mem_map.mp hx
  exact ovWeight_nonneg e he v

theorem weightSum_pos (e : K → K) (he : ∀ x, 0 < e x)
    (l : List (Option K)) (h : ∃ j, l.getD j none ≠ none) :
    0 < (l.map (ovWeight e)).sum := by
  obtain ⟨j0, hj0⟩ := h
  have hjl : j0 < l.length := getD_ne_none_lt hj0
  have hmem : ovWeight e (l.getD j0 none) ∈ l.map (ovWeight e) := by
    rw [List.getD_eq_getElem l none hjl]
    exact List.mem_map.mpr ⟨l[j0], List.getElem_mem hjl, rfl⟩
  have hgt : 0 < ovWeight e (l.getD j0 none) := by
    cases hv : l.getD j0 none with
    | none => exact absurd hv hj0
    | some x => exact he x
  calc 0 < ovWeight e (l.getD j0 none) := hgt
    _ ≤ (l.map (ovWeight e)).sum :=
      List.single_le_sum
        (fun x hx => by
          obtain ⟨v, _, rfl⟩ := List.mem_map.mp hx
          exact ovWeight_nonneg e he v) _ hmem

theorem softmax_getD_nonneg (e : K → K) (he : ∀ x, 0 < e x)
    (l : List (Option K)) (j : Nat) : 0 ≤ (softmax e l).getD j 0 := by
  rw [softmax_getD]
  exact div_nonneg (ovWeight_nonneg e he _) (weightSum_nonneg e he l)

theorem softmax_getD_le_one (e : K → K) (he : ∀ x, 0 < e x)
    (l : List (Option K)) (j : Nat) : (softmax e l).getD j 0 ≤ 1 := by
  rw [softmax_getD]
  by_cases hj : j < l.length
  · have hle : ovWeight e (l.getD j none) ≤ (l.map (ovWeight e)).sum := by
      apply List.single_le_sum
        (fun x hx => by
          obtain ⟨v, _, rfl⟩ := List.mem_map.mp hx
          exact ovWeight_nonneg e he v)
      rw [List.getD_eq_getElem l none hj]
      exact List.mem_map.mpr ⟨l[j], List.getElem_mem hj, rfl⟩
    rcases eq_or_lt_of_le (weightSum_nonneg e he l) with hS | hS
    · rw [← hS, div_zero]
      exact zero_le_one
    · exact (div_le_one hS).mpr hle
  · rw [List.getD_eq_getElem?_getD, List.getElem?_eq_none (by omega)]
    show ovWeight e none / _ ≤ 1
    simp [ovWeight]

theorem softmax_getD_eq_zero (e : K → K) (l : List (Option K)) (j : Nat)
    (h : l.getD j none = none) : (softmax e l).getD j 0 = 0 := by
  rw [softmax_getD, h]
  simp [ovWeight]

theorem softmax_getD_pos (e : K → K) (he : ∀ x, 0 < e x)
    (l : List (Option K)) (j : Nat) (h : l.getD j none ≠ none) :
    0 < (softmax e l).getD j 0 := by
  rw [softmax_getD]
  apply div_pos
  · cases hv : l.getD j none with
    | none => exact absurd hv h
    | some x => exact he x
  · exact weightSum_pos e he l ⟨j, h⟩

/-! The argmax scan of spago really returns a position of a maximal entry. -/

theorem argMaxGo_spec (rest : List K) : ∀ (i best : Nat) (bv : K),
    (argMaxGo rest i best bv = best ∧
      ∀ m < rest.length, rest.getD m 0 ≤ bv) ∨
    (∃ m < rest.length, argMaxGo rest i best bv = i + m ∧
      bv < rest.getD m 0 ∧
      ∀ m2 < rest.length, rest.getD m2 0 ≤ rest.getD m 0) := by
  induction rest with
  | nil =>
    intro i best bv
    exact Or.inl ⟨rfl, fun m hm => absurd hm (by simp)⟩
  | cons v vs ih =>
    intro i best bv
    by_cases hlt : bv < v
    · have hstep : argMaxGo (v :: vs) i best bv = argMaxGo vs (i + 1) i v := by
        simp [argMaxGo, hlt]
      rcases ih (i + 1) i v with ⟨heq, hall⟩ | ⟨m, hm, heq, hgt, hall⟩
      · refine Or.inr ⟨0, by simp, ?_, by simpa using hlt, ?_⟩
        · rw [hstep, heq]; omega
        · intro m2 hm2
          match m2 with
          | 0 => exact le_refl _
          | k + 1 =>
            rw [List.getD_cons_succ]
            show vs.getD k 0 ≤ (v :: vs).getD 0 0
            exact hall k (by simpa using hm2)
      · refine Or.inr ⟨m + 1, by simpa using hm, ?_, ?_, ?_⟩
        · rw [hstep, heq]; omega
        · rw [List.getD_cons_succ]
          exact lt_trans hlt hgt
        · intro m2 hm2
          rw [List.getD_cons_succ]
          match m2 with
          | 0 => exact le_of_lt hgt
          | k + 1 =>
            rw [List.getD_cons_succ]
            exact hall k (by simpa using hm2)
    · have hstep : argMaxGo (v :: vs) i best bv =
          argMaxGo vs (i + 1) best bv := by
        simp [argMaxGo, hlt]
      rcases ih (i + 1) best bv with ⟨heq, hall⟩ | ⟨m, hm, heq, hgt, hall⟩
      · refine Or.inl ⟨by rw [hstep, heq], ?_⟩
        intro m2 hm2
        match m2 with
        | 0 => exact le_of_not_lt hlt
        | k + 1 =>
          rw [List.getD_cons_succ]
          exact hall k (by simpa using hm2)
      · refine Or.inr ⟨m + 1, by simpa using hm, ?_, ?_, ?_⟩
        · rw [hstep, heq]; omega
        · rw [List.getD_cons_succ]; exact hgt
        · intro m2 hm2
          rw [List.getD_cons_succ]
          match m2 with
          | 0 => exact le_trans (le_of_not_lt hlt) (le_of_lt hgt)
          | k + 1 =>
            rw [List.getD_cons_succ]
            exact hall k (by simpa using hm2)

theorem argMax_spec (l : List K) (hne : l ≠ []) :
    argMax l < l.length ∧ ∀ j < l.length, l.getD j 0 ≤ l.getD (argMax l) 0 := by
  cases l with
  | nil => exact absurd rfl hne
  | cons v rest =>
    have hdef : argMax (v :: rest) = argMaxGo rest 1 0 v := rfl
    rcases argMaxGo_spec rest 1 0 v with ⟨heq, hall⟩ | ⟨m, hm, heq, hgt, hall⟩
    · rw [hdef, heq]
      refine ⟨by simp, ?_⟩
      intro j hj
      match j with
      | 0 => exact le_refl _
      | k + 1 =>
        rw [List.getD_cons_succ]
        exact hall k (by simpa using hj)
    · rw [hdef, heq]
      have h1m : 1 + m = m + 1 := by omega
      rw [h1m, List.getD_cons_succ]
      refine ⟨by simp; omega, ?_⟩
      intro j hj
      match j with
      | 0 => exact le_of_lt hgt
      | k + 1 =>
        rw [List.getD_cons_succ]
        exact hall k (by simpa using hj)

/-! The multinomial scan can only stop where it subtracted a positive
probability. -/

theorem multinomialPick_pos (probs : List K) : ∀ (r : K) (i0 j : Nat),
    0 ≤ r → multinomialPick probs r i0 = some j →
    i0 ≤ j ∧ j - i0 < probs.length ∧ 0 < probs.getD (j - i0) 0 := by
  induction probs with
  | nil =>
    intro r i0 j _ h
    exact absurd h (by simp [multinomialPick])
  | cons v vs ih =>
    intro r i0 j hr h
    rw [multinomialPick] at h
    by_cases hlt : r - v < 0
    · rw [if_pos hlt] at h
      obtain rfl : i0 = j := by simpa using h
      refine ⟨le_refl _, by simp, ?_⟩
      rw [Nat.sub_self]
      show (0 : K) < (v :: vs).getD 0 0
      have hv : r < v := by linarith
      exact lt_of_le_of_lt hr hv
    · rw [if_neg hlt] at h
      obtain ⟨h1, h2, h3⟩ := ih (r - v) (i0 + 1) j (by linarith) h
      refine ⟨by omega, by simp; omega, ?_⟩
      have hji : j - i0 = (j - (i0 + 1)) + 1 := by omega
      rw [hji, List.getD_cons_succ]
      exact h3

/-! Each diversity stage preserves a negative-infinity slot and keeps at
least one finite slot alive. -/

theorem getD_map_omap (f : K → K) (l : List (Option K)) (j : Nat) :
    (l.map (Option.map f)).getD j none = Option.map f (l.getD j none) := by
  rw [List.getD_eq_getElem?_getD, List.getD_eq_getElem?_getD,
    List.getElem?_map]
  cases l[j]? with
  | none => rfl
  | some v => cases v <;> rfl

theorem TemperatureFunc_getD_none (t : K) (l : List (Option K)) (j : Nat)
    (h : l.getD j none = none) :
    (TemperatureFunc t l).getD j none = none := by
  rw [TemperatureFunc]
  by_cases ht : t = 1
  · rw [if_pos ht]; exact h
  · rw [if_neg ht, getD_map_omap, h]; rfl

theorem TemperatureFunc_survivor (t : K) (l : List (Option K))
    (h : ∃ j, l.getD j none ≠ none) :
    ∃ j, (TemperatureFunc t l).getD j none ≠ none := by
  obtain ⟨j0, hj0⟩ := h
  refine ⟨j0, ?_⟩
  rw [TemperatureFunc]
  by_cases ht : t = 1
  · rw [if_pos ht]; exact hj0
  · rw [if_neg ht, getD_map_omap]
    cases hv : l.getD j0 none with
    | none => exact absurd hv hj0
    | some x => simp

theorem getD_map_none_fix (f : Option K → Option K) (hf : f none = none)
    (l : List (Option K)) (j : Nat) (h : l.getD j none = none) :
    (l.map f).getD j none = none := by
  by_cases hj : j < l.length
  · rw [getD_map_of_lt f l none none hj, h, hf]
  · rw [List.getD_eq_getElem?_getD,
      List.getElem?_eq_none (by rw [List.length_map]; omega)]
    rfl

theorem TopKFunc_getD_none (topK : Int) (scores : List (Option K)) (j : Nat)
    (h : scores.getD j none = none) :
    (TopKFunc topK none scores).getD j none = none := by
  have hout : TopKFunc topK none scores =
      scores.map (fun v => if ovLt v ((sortDesc scores).getD
        ((if (scores.length : Int) ≤ topK then (scores.length : Int)
          else topK) - 1).toNat none) then none else v) := rfl
  rw [hout]
  apply getD_map_none_fix _ _ scores j h
  exact ite_self none

theorem TopKFunc_survivor (topK : Int) (scores : List (Option K))
    (h : ∃ j, scores.getD j none ≠ none) :
    ∃ j, (TopKFunc topK none scores).getD j none ≠ none := by
  obtain ⟨j0, hj0⟩ := h
  have hj0lt : j0 < scores.length := getD_ne_none_lt hj0
  set ms := (sortDesc scores).getD
    ((if (scores.length : Int) ≤ topK then (scores.length : Int) else topK)
      - 1).toNat none with hms
  have hout : TopKFunc topK none scores =
      scores.map (fun v => if ovLt v ms then none else v) := rfl
  cases hmv : ms with
  | none =>
    refine ⟨j0, ?_⟩
    rw [hout, getD_map_of_lt _ _ none none hj0lt, hmv]
    cases hv : scores.getD j0 none with
    | none => exact absurd hv hj0
    | some x =>
      rw [if_neg (by simp [ovLt, ovLe])]
      simp
  | some y =>
    have hgd : (sortDesc scores).getD
        ((if (scores.length : Int) ≤ topK then (scores.length : Int)
          else topK) - 1).toNat none = some y := by
      rw [← hms]; exact hmv
    have hltd : ((if (scores.length : Int) ≤ topK then (scores.length : Int)
        else topK) - 1).toNat < (sortDesc scores).length :=
      getD_ne_none_lt (by rw [hgd]; simp)
    rw [List.getD_eq_getElem _ none hltd] at hgd
    have hmem : (some y) ∈ sortDesc scores := hgd ▸ List.getElem_mem hltd
    have hmem2 : (some y) ∈ scores := (sortDesc_perm scores).subset hmem
    obtain ⟨m, hget⟩ := List.get_of_mem hmem2
    refine ⟨m.1, ?_⟩
    have hmlt : m.1 < scores.length := m.isLt
    rw [hout, getD_map_of_lt _ _ none none hmlt]
    have hg : scores.getD m.1 none = some y := by
      rw [List.getD_eq_getElem _ none hmlt, ← List.get_eq_getElem]
      exact hget
    rw [hg, hmv, if_neg (by simp [ovLt, ovLe])]
    simp

theorem TopPFunc_getD_none (e : K → K) (topP : K) (minSize : Nat)
    (scores : List (Option K)) (t : Nat) (h : scores.getD t none = none) :
    (TopPFunc e topP none minSize scores).getD t none = none :=
  foldl_set_getD_none _ scores t h

theorem mem_zip_range (l : List (Option K)) {v : Option K} {i : Nat}
    (h : (v, i) ∈ l.zip (List.range l.length)) :
    i < l.length ∧ l.getD i none = v := by
  obtain ⟨m, hget⟩ := List.get_of_mem h
  have hlen : (l.zip (List.range l.length)).length = l.length := by
    rw [List.length_zip, List.length_range, Nat.min_self]
  have hm : m.1 < l.length := by
    have := m.isLt
    omega
  have hz : (l.zip (List.range l.length)).get m = (l[m.1], m.1) := by
    rw [List.get_eq_getElem, List.getElem_zip, List.getElem_range]
  rw [hz] at hget
  have hv : l[m.1] = v := congrArg Prod.fst hget
  have hi : m.1 = i := congrArg Prod.snd hget
  subst hi
  exact ⟨hm, by rw [List.getD_eq_getElem l none hm]; exact hv⟩

theorem zip_range_getD_mem (l : List (Option K)) (j : Nat)
    (hj : j < l.length) :
    (l.getD j none, j) ∈ l.zip (List.range l.length) := by
  have hjz : j < (l.zip (List.range l.length)).length := by
    rw [List.length_zip, List.length_range, Nat.min_self]
    exact hj
  have h1 : (l.zip (List.range l.length))[j] = (l[j], j) := by
    rw [List.getElem_zip, List.getElem_range]
  have h2 := List.getElem_mem hjz
  rw [h1] at h2
  rw [List.getD_eq_getElem l none hj]
  exact h2

/-- The mask built inside TopPFunc before the shift, as a named function of
the sorted pair list. -/
def topPMask1 (e : K → K) (topP : K) (minSize : Nat)
    (sorted : List (Option K × Nat)) : List Bool :=
  let cumProbs := cumSum (softmax e (sorted.map Prod.fst))
  let mask0 := cumProbs.map (fun cp => decide (topP < cp))
  if minSize > 1 then
    mask0.enum.map (fun p => if p.1 < minSize then false else p.2)
  else mask0

theorem scatter_head_survivor (scores : List (Option K))
    (hd : Option K × Nat) (tl : List (Option K × Nat)) (mask1 : List Bool)
    (hnotin : hd.2 ∉ tl.map Prod.snd)
    (hv : scores.getD hd.2 none = hd.1) (hvne : hd.1 ≠ none) :
    (((false :: mask1).zip ((hd :: tl).map Prod.snd)).foldl
        (fun out bi => if bi.1 then out.set bi.2 (none : Option K) else out)
        scores).getD hd.2 none ≠ none := by
  rw [List.map_cons, List.zip_cons_cons, List.foldl_cons]
  rw [if_neg (by simp)]
  rw [foldl_set_getD_eq _ scores hd.2 ?hno]
  · rw [hv]; exact hvne
  case hno =>
    intro p hp _
    obtain ⟨pb, pn⟩ := p
    have hmem := (List.of_mem_zip hp).2
    intro hpt
    simp only at hpt
    rw [hpt] at hmem
    exact hnotin hmem

theorem TopPFunc_survivor (e : K → K) (topP : K) (minSize : Nat)
    (scores : List (Option K)) (h : ∃ j, scores.getD j none ≠ none) :
    ∃ j, (TopPFunc e topP none minSize scores).getD j none ≠ none := by
  obtain ⟨j0, hj0⟩ := h
  have hj0lt : j0 < scores.length := getD_ne_none_lt hj0
  set Z := scores.zip (List.range scores.length) with hZ
  set sorted := Z.mergeSort (fun a b => ovLe b.1 a.1) with hsorted
  have hperm : sorted.Perm Z := List.mergeSort_perm _ _
  have hlenZ : Z.length = scores.length := by
    rw [hZ, List.length_zip, List.length_range, Nat.min_self]
  have hlen : sorted.length = scores.length := by rw [hperm.length_eq, hlenZ]
  have hsort : sorted.Pairwise (fun a b => ovLe b.1 a.1 = true) :=
    @List.sorted_mergeSort _ (fun a b => ovLe b.1 a.1)
      (fun a b c h1 h2 => @ovLe_trans K _ c.1 b.1 a.1 h2 h1)
      (fun a b => ovLe_total b.1 a.1) Z
  have hmemZ : (scores.getD j0 none, j0) ∈ Z :=
    zip_range_getD_mem scores j0 hj0lt
  have hmemS : (scores.getD j0 none, j0) ∈ sorted := hperm.mem_iff.mpr hmemZ
  have hsnd : (sorted.map Prod.snd).Nodup := by
    have hmap := hperm.map Prod.snd
    have hsndz : Z.map Prod.snd = List.range scores.length := by
      rw [hZ]
      exact List.map_snd_zip _ _ (by rw [List.length_range])
    rw [hsndz] at hmap
    exact hmap.nodup_iff.mpr (List.nodup_range _)
  obtain ⟨hd, tl, hcons⟩ : ∃ hd tl, sorted = hd :: tl := by
    cases hsc : sorted with
    | nil =>
      rw [hsc] at hlen
      simp at hlen
      omega
    | cons a l => exact ⟨a, l, rfl⟩
  rw [hcons] at hmemS hsort hsnd
  have hpair := List.pairwise_cons.mp hsort
  have hnotin : hd.2 ∉ tl.map Prod.snd := (List.nodup_cons.mp hsnd).1
  have hhd1 : hd.1 ≠ none := by
    rcases List.mem_cons.mp hmemS with heq | htlmem
    · have : scores.getD j0 none = hd.1 := congrArg Prod.fst heq
      rw [← this]
      exact hj0
    · have hrel := hpair.1 _ htlmem
      cases hc : hd.1 with
      | none =>
        rw [hc] at hrel
        cases hx : scores.getD j0 none with
        | none => exact absurd hx hj0
        | some x => rw [hx] at hrel; simp [ovLe] at hrel
      | some y => simp
  have hin : (hd.1, hd.2) ∈ Z := by
    rw [Prod.mk.eta]
    apply hperm.subset
    rw [hcons]
    exact List.mem_cons_self hd tl
  have hvdx := (mem_zip_range scores (by rw [hZ] at hin; exact hin)).2
  have hTP : TopPFunc e topP none minSize scores =
      ((false :: (topPMask1 e topP minSize sorted).dropLast).zip
        (sorted.map Prod.snd)).foldl
        (fun out bi => if bi.1 then out.set bi.2 (none : Option K) else out)
        scores := rfl
  refine ⟨hd.2, ?_⟩
  rw [hTP, hcons]
  exact scatter_head_survivor scores hd tl _ hnotin hvdx hhd1

/-! The composed pipeline preserves any invariant preserved by each stage. -/

theorem runStages_pres (P : List (Option K) → Prop)
    (stages : List (List (Option K) → List (Option K)))
    (hst : ∀ f ∈ stages, ∀ l, P l → P (f l)) :
    ∀ l, P l → P (runStages stages l) := by
  induction stages with
  | nil => intro l hl; exact hl
  | cons f fs ih =>
    intro l hl
    show P (runStages fs (f l))
    exact ih (fun g hg => hst g (List.mem_cons_of_mem f hg)) (f l)
      (hst f (List.mem_cons_self f fs) l hl)

theorem stagesODC_mem (e : K → K) (temp : K) (topK : Int) (topP : K) :
    ∀ f ∈ stagesODC e temp topK topP,
      (∃ t, f = TemperatureFunc t) ∨ (∃ k, f = TopKFunc k none) ∨
      (∃ p, f = TopPFunc e p none 1) := by
  intro f hf
  rw [stagesODC] at hf
  rcases List.mem_append.mp hf with hf | hf
  · rcases List.mem_append.mp hf with hf | hf
    · split at hf
      · exact Or.inl ⟨_, by simpa using hf⟩
      · exact absurd hf (by simp)
    · split at hf
      · exact Or.inr (Or.inl ⟨_, by simpa using hf⟩)
      · exact absurd hf (by simp)
  · split at hf
    · exact Or.inr (Or.inr ⟨_, by simpa using hf⟩)
    · exact absurd hf (by simp)

theorem stagesODC_getD_none (e : K → K) (temp : K) (topK : Int) (topP : K)
    (l : List (Option K)) (t : Nat) (h : l.getD t none = none) :
    (runStages (stagesODC e temp topK topP) l).getD t none = none := by
  apply runStages_pres (fun l => l.getD t none = none) _ _ l h
  intro f hf l2 hl2
  rcases stagesODC_mem e temp topK topP f hf with ⟨t2, rfl⟩ | ⟨k, rfl⟩ |
    ⟨p, rfl⟩
  · exact TemperatureFunc_getD_none t2 l2 t hl2
  · exact TopKFunc_getD_none k l2 t hl2
  · exact TopPFunc_getD_none e p 1 l2 t hl2

theorem stagesODC_survivor (e : K → K) (temp : K) (topK : Int) (topP : K)
    (l : List (Option K)) (h : ∃ j, l.getD j none ≠ none) :
    ∃ j, (runStages (stagesODC e temp topK topP) l).getD j none ≠ none := by
  apply runStages_pres (fun l => ∃ j, l.getD j none ≠ none) _ _ l h
  intro f hf l2 hl2
  rcases stagesODC_mem e temp topK topP f hf with ⟨t2, rfl⟩ | ⟨k, rfl⟩ |
    ⟨p, rfl⟩
  · exact TemperatureFunc_survivor t2 l2 hl2
  · exact TopKFunc_survivor k l2 hl2
  · exact TopPFunc_survivor e p 1 l2 hl2

/-! Reading a successful decoder construction back. -/

theorem New_ok_elim (e : K → K) (opts : DecodingOptions K) (d : Decoder K)
    (h : New e opts = Except.ok d) :
    d.opts = opts ∧ d.applyOutputControl =
      runStages (stagesODC e opts.temp opts.topK opts.topP) := by
  cases hodc : OutputDiversityControl e opts.temp opts.topK opts.topP with
  | error err =>
    rw [New, hodc] at h
    exact absurd h (by simp)
  | ok dc =>
    rw [New, hodc] at h
    have hd : ({ applyOutputControl := dc, opts := opts } : Decoder K) = d :=
      by simpa using h
    have hdc : dc = runStages (stagesODC e opts.temp opts.topK opts.topP) := by
      rw [OutputDiversityControl] at hodc
      split at hodc
      · exact absurd hodc (by simp)
      · split at hodc
        · exact absurd hodc (by simp)
        · split at hodc
          · exact absurd hodc (by simp)
          · have := hodc
            simp only [Except.ok.injEq] at this
            exact this.symm
    rw [← hd]
    exact ⟨rfl, hdc⟩

/-! A successful output selection reports the softmax probability of the
chosen token, and that probability is positive whenever a finite candidate
remains. -/

theorem OutputSelection_ok_score (sampling : Bool) (e : K → K) (r : K)
    (cands : List (Option K)) (tok : Nat) (score : K)
    (h : OutputSelection sampling e r cands = Except.ok (tok, score)) :
    score = (softmax e cands).getD tok 0 := by
  cases sampling with
  | false =>
    have hg : GreedyDecoding e cands = Except.ok (tok, score) := by
      rw [OutputSelection] at h
      simpa using h
    rw [GreedyDecoding] at hg
    have := (Prod.mk.injEq _ _ _ _).mp (by simpa using hg)
    rw [← this.2, ← this.1]
    exact (List.getD_eq_getElem?_getD _ _ _).symm
  | true =>
    have hm : MultinomialSampling e r cands = Except.ok (tok, score) := by
      rw [OutputSelection] at h
      simpa using h
    rw [MultinomialSampling] at hm
    by_cases hlen : 1 > (softmax e cands).length
    · rw [if_pos hlen] at hm
      exact absurd hm (by simp)
    · rw [if_neg hlen] at hm
      cases hpick : multinomialPick (softmax e cands) r 0 with
      | none => rw [hpick] at hm; exact absurd hm (by simp)
      | some i =>
        rw [hpick] at hm
        have := (Prod.mk.injEq _ _ _ _).mp (by simpa using hm)
        rw [← this.2, ← this.1]
        exact (List.getD_eq_getElem?_getD _ _ _).symm

theorem OutputSelection_ok_tok_pos (sampling : Bool) (e : K → K)
    (he : ∀ x, 0 < e x) (r : K) (hr : 0 ≤ r) (cands : List (Option K))
    (hsur : ∃ j, cands.getD j none ≠ none) (tok : Nat) (score : K)
    (h : OutputSelection sampling e r cands = Except.ok (tok, score)) :
    0 < (softmax e cands).getD tok 0 := by
  cases sampling with
  | false =>
    have hg : GreedyDecoding e cands = Except.ok (tok, score) := by
      rw [OutputSelection] at h
      simpa using h
    rw [GreedyDecoding] at hg
    have htok : argMax (softmax e cands) = tok :=
      ((Prod.mk.injEq _ _ _ _).mp (by simpa using hg)).1
    obtain ⟨js, hjs⟩ := hsur
    have hjslt : js < cands.length := getD_ne_none_lt hjs
    have hjp : 0 < (softmax e cands).getD js 0 :=
      softmax_getD_pos e he cands js hjs
    have hplen : (softmax e cands).length = cands.length :=
      softmax_length e cands
    have hpne : softmax e cands ≠ [] := by
      intro hh
      rw [hh] at hplen
      simp at hplen
      omega
    obtain ⟨hmaxlt, hmax⟩ := argMax_spec (softmax e cands) hpne
    have hle : (softmax e cands).getD js 0 ≤
        (softmax e cands).getD (argMax (softmax e cands)) 0 :=
      hmax js (by omega)
    rw [← htok]
    exact lt_of_lt_of_le hjp hle
  | true =>
    have hm : MultinomialSampling e r cands = Except.ok (tok, score) := by
      rw [OutputSelection] at h
      simpa using h
    rw [MultinomialSampling] at hm
    by_cases hlen : 1 > (softmax e cands).length
    · rw [if_pos hlen] at hm
      exact absurd hm (by simp)
    · rw [if_neg hlen] at hm
      cases hpick : multinomialPick (softmax e cands) r 0 with
      | none => rw [hpick] at hm; exact absurd hm (by simp)
      | some i =>
        rw [hpick] at hm
        have hi : i = tok :=
          ((Prod.mk.injEq _ _ _ _).mp (by simpa using hm)).1
        rw [hi] at hpick
        obtain ⟨h1, h2, h3⟩ :=
          multinomialPick_pos (softmax e cands) r 0 tok hr hpick
        rw [Nat.sub_zero] at h3
        exact h3

/-- Claim C6: at every step with fewer than MinLen generated tokens, the
decoder forces the end-token logit to negative infinity before the diversity
pipeline and the selection run; consequently the end token is never the
greedy argmax and never selectable by multinomial sampling, whatever its true
logit was, as long as any other token has a finite logit and the uniform draw
is nonnegative. -/
theorem claim_C6 (e : K → K) (he : ∀ x, 0 < e x) (opts : DecodingOptions K)
    (d : Decoder K) (hnew : New e opts = Except.ok d)
    (logits : List (Option K)) (seqLen : Nat) (hshort : seqLen < opts.minLen)
    (r : K) (hr : 0 ≤ r)
    (hfin : ∃ j, j ≠ opts.endTokenID ∧ logits.getD j none ≠ none)
    (tok : Nat) (score : K)
    (hsel : OutputSelection d.opts.useSampling e r
        (d.applyOutputControl (adjustLogits d.opts logits seqLen)) =
      Except.ok (tok, score)) :
    tok ≠ opts.endTokenID := by
  obtain ⟨hopts, hctl⟩ := New_ok_elim e opts d hnew
  rw [hopts, hctl] at hsel
  obtain ⟨j0, hj0ne, hj0⟩ := hfin
  have hend : (adjustLogits opts logits seqLen).getD opts.endTokenID none =
      none := by
    rw [adjustLogits, if_neg (by omega)]
    exact getD_set_none_self logits opts.endTokenID
  have hsur0 : (adjustLogits opts logits seqLen).getD j0 none ≠ none := by
    rw [adjustLogits, if_neg (by omega),
      getD_set_ne logits (fun hh => hj0ne hh.symm) none]
    exact hj0
  have hendc : (runStages (stagesODC e opts.temp opts.topK opts.topP)
      (adjustLogits opts logits seqLen)).getD opts.endTokenID none = none :=
    stagesODC_getD_none e opts.temp opts.topK opts.topP _ _ hend
  have hsurc : ∃ j, (runStages (stagesODC e opts.temp opts.topK opts.topP)
      (adjustLogits opts logits seqLen)).getD j none ≠ none :=
    stagesODC_survivor e opts.temp opts.topK opts.topP _ ⟨j0, hsur0⟩
  have hpos := OutputSelection_ok_tok_pos opts.useSampling e he r hr _
    hsurc tok score hsel
  have hzero := softmax_getD_eq_zero e _ opts.endTokenID hendc
  intro hco
  rw [hco, hzero] at hpos
  exact lt_irrefl 0 hpos

/-- Options for the concrete end-token suppression check: MinLen 5, end
token 1, no diversity stages, greedy selection. -/
def c6opts : DecodingOptions Rat :=
  { maxLen := 10, minLen := 5, stopSequencesIDs := [], endTokenID := 1,
    skipEndTokenID := false, temp := 1, topK := 0, topP := 1,
    useSampling := false }

/-- The decoder New builds from those options. -/
def c6dec : Decoder Rat :=
  { applyOutputControl := runStages (stagesODC (fun _ : Rat => 1) 1 0 1),
    opts := c6opts }

/-- Witness for claim C6: with logits favouring token 0 and the end token 1
suppressed below MinLen, greedy selection returns token 0, not the end
token. -/
theorem claim_C6_witness :
    (∀ x : Rat, (0 : Rat) < (fun _ : Rat => (1 : Rat)) x) ∧
    New (fun _ : Rat => 1) c6opts = Except.ok c6dec ∧
    (0 : Nat) < c6opts.minLen ∧ (0 : Rat) ≤ 0 ∧
    ((0 : Nat) ≠ c6opts.endTokenID ∧
      ([some 5, some 3] : List (Option Rat)).getD 0 none ≠ none) ∧
    OutputSelection c6dec.opts.useSampling (fun _ : Rat => 1) 0
        (c6dec.applyOutputControl
          (adjustLogits c6dec.opts [some 5, some 3] 0)) =
      Except.ok (0, 1) ∧
    (0 : Nat) ≠ c6opts.endTokenID := by
  have happ : c6dec.applyOutputControl
      (adjustLogits c6dec.opts [some 5, some 3] 0) = [some 5, none] := by
    show runStages (stagesODC (fun _ : Rat => 1) 1 0 1)
      (adjustLogits c6dec.opts [some 5, some 3] 0) = [some 5, none]
    rw [show stagesODC (fun _ : Rat => 1) 1 0 1 =
        ([] : List (List (Option Rat) → List (Option Rat))) by
      simp [stagesODC]]
    rw [show adjustLogits c6dec.opts [some 5, some 3] 0 =
        [some 5, none] from rfl]
    rfl
  have hsel : OutputSelection c6dec.opts.useSampling (fun _ : Rat => 1) 0
      (c6dec.applyOutputControl
        (adjustLogits c6dec.opts [some 5, some 3] 0)) =
      Except.ok (0, 1) := by
    rw [happ]
    show Except.ok (argMax (softmax (fun _ : Rat => 1) [some 5, none]),
        (softmax (fun _ : Rat => 1) [some 5, none]).getD
          (argMax (softmax (fun _ : Rat => 1) [some 5, none])) 0) =
      Except.ok (0, 1)
    rw [show softmax (fun _ : Rat => 1) [some 5, none] = [1, 0] by
      norm_num [softmax, ovWeight]]
    rw [show argMax ([1, 0] : List Rat) = 0 by norm_num [argMax, argMaxGo]]
    rw [show (([1, 0] : List Rat)).getD 0 0 = 1 from rfl]
  exact ⟨fun _ => one_pos, rfl, by decide, le_refl 0,
    ⟨by decide, by decide⟩, hsel,
    claim_C6 (fun _ : Rat => 1) (fun _ => one_pos) c6opts c6dec rfl
      [some 5, some 3] 0 (by decide) 0 (le_refl 0)
      ⟨0, by decide, by decide⟩ 0 1 hsel⟩

/-! ### Claim C10: the running negative-log score never decreases

Instantiated at the real exponential and logarithm: each successful selection
reports a softmax probability, softmax probabilities lie in [0, 1], and the
negative logarithm of such a value is nonnegative (Real.log 0 = 0 covers the
degenerate empty-candidate case), so each step's increment is nonnegative. -/

theorem decodeLoop_sums_mono (d : Decoder ℝ)
    (logitsOf : List Nat → List (Option ℝ)) (draws : Nat → ℝ) :
    ∀ (fuel : Nat) (seq : List Nat) (s : ℝ),
    List.Chain' (· ≤ ·)
      ((decodeLoop d Real.exp Real.log logitsOf draws fuel seq s).1.map
        StepResult.sumNegLogProbs) ∧
    ∀ sr ∈ (decodeLoop d Real.exp Real.log logitsOf draws fuel seq s).1,
      s ≤ sr.sumNegLogProbs := by
  intro fuel
  induction fuel with
  | zero =>
    intro seq s
    constructor
    · simp [decodeLoop]
    · simp [decodeLoop]
  | succ fuel ih =>
    intro seq s
    cases hsel : OutputSelection d.opts.useSampling Real.exp
        (draws seq.length)
        (d.applyOutputControl
          (adjustLogits d.opts (logitsOf seq) seq.length)) with
    | error msg =>
      constructor
      · simp [decodeLoop, hsel]
      · simp [decodeLoop, hsel]
    | ok ts =>
      obtain ⟨tok, score⟩ := ts
      have hscore := OutputSelection_ok_score d.opts.useSampling Real.exp
        (draws seq.length) _ tok score hsel
      have h0 : 0 ≤ score := by
        rw [hscore]
        exact softmax_getD_nonneg Real.exp (fun x => Real.exp_pos x) _ tok
      have h1 : score ≤ 1 := by
        rw [hscore]
        exact softmax_getD_le_one Real.exp (fun x => Real.exp_pos x) _ tok
      have hinc : s ≤ s + -(Real.log score) := by
        have hlog := Real.log_nonpos h0 h1
        linarith
      obtain ⟨ihc, ihb⟩ := ih (seq ++ [tok]) (s + -(Real.log score))
      simp only [decodeLoop, hsel]
      by_cases hstop : checkStopConditions d.opts (seq ++ [tok]) = true
      · rw [if_pos hstop]
        by_cases hw : checkWriteConditions d.opts tok = true
        · rw [if_pos hw]
          constructor
          · simp
          · intro sr hsr
            simp only [List.mem_singleton] at hsr
            rw [hsr]
            exact hinc
        · rw [if_neg hw]
          exact ⟨by simp, by simp⟩
      · rw [if_neg hstop]
        by_cases hw : checkWriteConditions d.opts tok = true
        · rw [if_pos hw]
          constructor
          · rw [List.singleton_append, List.map_cons, List.chain'_cons']
            constructor
            · intro y hy
              obtain ⟨sr, hsr, rfl⟩ :=
                List.mem_map.mp (List.mem_of_mem_head? hy)
              exact ihb sr hsr
            · exact ihc
          · intro sr hsr
            rw [List.singleton_append] at hsr
            rcases List.mem_cons.mp hsr with h | h
            · rw [h]; exact hinc
            · exact le_trans hinc (ihb sr h)
        · rw [if_neg hw]
          rw [List.nil_append]
          exact ⟨ihc, fun sr hsr => le_trans hinc (ihb sr hsr)⟩

/-- Claim C10: within one call of the generation loop, every selection that
succeeds reports the softmax probability of the chosen token, which lies in
(0, 1] whenever a finite candidate survives and the draw is nonnegative; and
the SumNegLogProbs values of the emitted token stream are non-decreasing,
since each step adds the negative logarithm of such a probability. -/
theorem claim_C10 (d : Decoder ℝ) (logitsOf : List Nat → List (Option ℝ))
    (draws : Nat → ℝ) (fuel : Nat) (seq0 : List Nat) (sum0 : ℝ) :
    (∀ (cands : List (Option ℝ)) (r : ℝ) (tok : Nat) (score : ℝ),
      0 ≤ r → (∃ j, cands.getD j none ≠ none) →
      OutputSelection d.opts.useSampling Real.exp r cands =
        Except.ok (tok, score) →
      0 < score ∧ score ≤ 1) ∧
    List.Chain' (· ≤ ·)
      ((decodeLoop d Real.exp Real.log logitsOf draws fuel seq0 sum0).1.map
        StepResult.sumNegLogProbs) := by
  constructor
  · intro cands r tok score hr hsur hok
    constructor
    · rw [OutputSelection_ok_score d.opts.useSampling Real.exp r cands tok
        score hok]
      exact OutputSelection_ok_tok_pos d.opts.useSampling Real.exp
        (fun x => Real.exp_pos x) r hr cands hsur tok score hok
    · rw [OutputSelection_ok_score d.opts.useSampling Real.exp r cands tok
        score hok]
      exact softmax_getD_le_one Real.exp (fun x => Real.exp_pos x) cands tok
  · exact (decodeLoop_sums_mono d logitsOf draws fuel seq0 sum0).1

/-- Witness for claim C10: a concrete three-step greedy run over the reals
has a non-decreasing emitted score sequence. -/
theorem claim_C10_witness :
    List.Chain' (· ≤ ·)
      ((decodeLoop
          ({ applyOutputControl := runStages (stagesODC Real.exp 1 0 1)
             opts :=
              { maxLen := 2
                minLen := 0
                stopSequencesIDs := []
                endTokenID := 0
                skipEndTokenID := false
                temp := 1
                topK := 0
                topP := 1
                useSampling := false } } : Decoder ℝ)
          Real.exp Real.log (fun _ => [some 0, some 1]) (fun _ => 0)
          3 [] 0).1.map StepResult.sumNegLogProbs) :=
  (claim_C10 _ (fun _ => [some 0, some 1]) (fun _ => 0) 3 [] 0).2

end Decoding

/-! ## Package rwkvlm: converter storage handling (claim C8)

Embedding of the tensor-storage handling of the two converter variants: the
tensorData reader (which reads a tensor's raw values from its PyTorch storage)
and the parameter extraction of ConvertPickledModelToRWKVLM (which walks the
unpickled dictionary).  Scalars are abstract elements of K. -/

namespace Converter

variable {K : Type} [LinearOrderedField K]

/-- The two PyTorch storage kinds the spec names: 32-bit float storage and
half-precision bf16 storage (gopickle pytorch.FloatStorage and
pytorch.BFloat16Storage). -/
inductive Storage (K : Type) where
  | floatStorage (data : List K)
  | bfloat16Storage (data : List K)

/-- gopickle pytorch.Tensor: the storage source, the declared sizes and
strides, and the storage offset. -/
structure PTensor (K : Type) where
  source : Storage K
  size : List Nat
  stride : List Nat
  storageOffset : Nat

/-- tensorDataSize: the product of the declared sizes (Go indexes Size[0]
first and panics on a tensor with no dimensions). -/
def tensorDataSize (t : PTensor K) : Nat :=
  match t.size with
  | [] => 0
  | s :: rest => rest.foldl (fun a b => a * b) s

/-- converter.tensorData: read the values from the storage slice.  Only
BFloat16Storage is accepted; any other storage kind is an error. -/
def tensorData (t : PTensor K) : Except String (List K) :=
  match t.source with
  | Storage.bfloat16Storage st =>
    Except.ok ((st.drop t.storageOffset).take (tensorDataSize t))
  | _ => Except.error "only BFloat16Storage is supported"

/-- extractTensorValuesAsFloat32Slice: read a 1-D or 2-D float tensor in
row-major order, transposing a column-major matrix as detected from the
declared strides (out[i + j*s0] = orig[j + i*s1]). -/
def extractTensorValuesAsFloat32Slice (t : PTensor K) (data : List K) :
    List K :=
  match t.size with
  | [n] => (data.drop t.storageOffset).take n
  | [r, c] =>
    let orig := (data.drop t.storageOffset).take (r * c)
    if c = 1 ∨ r = 1 ∨ t.stride.getD 1 0 = 1 then orig
    else
      (List.range (c * r)).map (fun m => orig.getD (m / c + m % c * r) 0)
  | _ => []

/-- The parameter walk of extractPyTorchModelParamsFromPickleFile: a tensor's
values are recorded only when its storage is FloatStorage; any other storage
kind is silently skipped. -/
def extractParams (entries : List (String × PTensor K)) :
    List (String × List K) :=
  entries.filterMap fun nt =>
    match nt.2.source with
    | Storage.floatStorage st =>
      some (nt.1, extractTensorValuesAsFloat32Slice nt.2 st)
    | _ => none

/-- Counterexample to claim C8: a tensor held in 32-bit float storage makes
the converter's tensorData fail, so conversion does not decode whichever of
the two storage kinds is present. -/
theorem claim_C8_counterexample :
    tensorData
      ({ source := Storage.floatStorage [1, 2], size := [2], stride := [1],
         storageOffset := 0 } : PTensor Rat) =
      Except.error "only BFloat16Storage is supported" := rfl

/-- Claim C8 as amended: each converter variant decodes exactly one of the two
storage kinds.  The rwkvlm converter's tensorData succeeds precisely on bf16
storage (erring on float32 storage), while the pickled-parameter extraction of
ConvertPickledModelToRWKVLM keeps precisely the float32-backed tensors,
silently dropping bf16-backed ones. -/
theorem claim_C8_amended :
    (∀ t : PTensor K,
      (∃ d, tensorData t = Except.ok d) ↔
        (∃ st, t.source = Storage.bfloat16Storage st)) ∧
    (∀ (entries : List (String × PTensor K)) (name : String),
      (∃ vals, (name, vals) ∈ extractParams entries) ↔
        (∃ p ∈ entries, p.1 = name ∧
          ∃ st, p.2.source = Storage.floatStorage st)) := by
  constructor
  · intro t
    constructor
    · rintro ⟨d, hd⟩
      unfold tensorData at hd
      cases hsrc : t.source with
      | floatStorage st => rw [hsrc] at hd; exact absurd hd (by simp)
      | bfloat16Storage st => exact ⟨st, rfl⟩
    · rintro ⟨st, hst⟩
      unfold tensorData
      rw [hst]
      exact ⟨_, rfl⟩
  · intro entries name
    constructor
    · rintro ⟨vals, hmem⟩
      unfold extractParams at hmem
      obtain ⟨p, hp, hout⟩ := List.mem_filterMap.mp hmem
      refine ⟨p, hp, ?_⟩
      cases hsrc : p.2.source with
      | floatStorage st =>
        rw [hsrc] at hout
        simp at hout
        exact ⟨hout.1.symm ▸ rfl, st, rfl⟩
      | bfloat16Storage st =>
        rw [hsrc] at hout
        simp at hout
    · rintro ⟨p, hp, hname, st, hst⟩
      refine ⟨extractTensorValuesAsFloat32Slice p.2 st, ?_⟩
      unfold extractParams
      rw [List.mem_filterMap]
      refine ⟨p, hp, ?_⟩
      rw [hst, hname]

end Converter

end VerbaFlow
